import Mathlib

/-!
Verification development for the `bilibili-captcha` repository
(`dataset_manager.py` and `captcha_learn.py`).

The Python modules are shallowly embedded as executable Lean functions.
Conventions used throughout:

* Filesystem directories are modelled as lists of filenames (a directory
  listing); association lists model Python dictionaries and directories
  mapping filenames to file contents.
* `float` arithmetic of the source is modelled exactly over `ℚ`.
* Code that can raise a Python exception is modelled in `Except PyErr`.
* The CAPTCHA provider (`captcha_provider.py`) and the recognizer
  (`captcha_recognizer.py`) are not part of the repository snapshot; they
  are abstracted: the provider by its alphabet `chars`, sequence length
  `seqLen` and canonicalization/validation functions, the recognizer by a
  function `rec : String → Bool` giving the segmentation outcome for the
  stored CAPTCHA of a given sequence label (the image passed to
  `recognizer.partition` is exactly the stored image of that label, so the
  outcome is a function of the label).
-/

/-- Python exceptions that the embedded code can raise. -/
inductive PyErr where
  | keyError
  | indexError
  | modelLoadError
  deriving DecidableEq

/-- `Except.isOk`-style discriminator (avoids needing decidable equality on
`Except`). -/
def exceptIsOk {ε α : Type _} : Except ε α → Bool
  | .ok _ => true
  | .error _ => false

instance {eps alpha : Type _} [DecidableEq eps] [DecidableEq alpha] :
    DecidableEq (Except eps alpha) := fun x y =>
  match x, y with
  | .ok a, .ok b =>
    if h : a = b then isTrue (h ▸ rfl) else isFalse (fun hh => h (Except.ok.inj hh))
  | .ok _, .error _ => isFalse (fun hh => Except.noConfusion hh)
  | .error _, .ok _ => isFalse (fun hh => Except.noConfusion hh)
  | .error e, .error f =>
    if h : e = f then isTrue (h ▸ rfl) else isFalse (fun hh => h (Except.error.inj hh))

/-- Association-list lookup, modelling Python `dict[key]` reads
(`none` models a `KeyError`). -/
def lookupKey {κ α : Type _} [DecidableEq κ] : List (κ × α) → κ → Option α
  | [], _ => none
  | (k, v) :: rest, c => if c = k then some v else lookupKey rest c

/-- Association-list update, modelling Python `dict[key] = value`
(replaces an existing binding, otherwise appends a new one). -/
def setKey {κ α : Type _} [DecidableEq κ] : List (κ × α) → κ → α → List (κ × α)
  | [], c, v => [(c, v)]
  | (k, w) :: rest, c, v => if c = k then (k, v) :: rest else (k, w) :: setKey rest c v

/-! ### Filename helpers (`_add_suffix`, `_remove_suffix`, `_get_suffix`,
`_list_png`, `_list_basename`) -/

/-- Index (from the left) of the last `'.'` of a filename, if any. -/
def lastDotIdx (cs : List Char) : Option Nat :=
  match cs.reverse.findIdx? (fun c => c = '.') with
  | none => none
  | some r => some (cs.length - 1 - r)

/-- Position where the `os.path.splitext` extension starts: the last dot,
except that dots leading the name do not start an extension. -/
def splitextIdx (cs : List Char) : Option Nat :=
  let lead := (cs.takeWhile (fun c => c = '.')).length
  match lastDotIdx cs with
  | none => none
  | some i => if lead ≤ i then some i else none

/-- `_remove_suffix`: basename part of `os.path.splitext`. -/
def removeSuffix (fn : String) : String :=
  match splitextIdx fn.data with
  | none => fn
  | some i => String.mk (fn.data.take i)

/-- `_get_suffix`: extension part of `os.path.splitext`. -/
def getSuffix (fn : String) : String :=
  match splitextIdx fn.data with
  | none => ""
  | some i => String.mk (fn.data.drop i)

/-- `_add_suffix` with the default `.png` suffix. -/
def addSuffix (basename : String) : String := basename ++ ".png"

/-- `_list_png`: all filenames of a directory listing whose extension is
`.png`. -/
def list_png (dir : List String) : List String :=
  dir.filter (fun fn => getSuffix fn = ".png")

/-- `_list_basename`: the basenames of the `.png` files of a directory. -/
def list_basename (dir : List String) : List String :=
  (list_png dir).map removeSuffix

/-! ### The partition ledger (`partition.json`) -/

/-- Per-character counters of the ledger: one `"#{char}"` key per character,
holding a `[success_count, total_count]` pair. -/
abbrev CharMap := List (Char × (Nat × Nat))

/-- The keys of `partition.json` that `partition_training_images_to_chars`
reads back: `'fail'`, `'success'` and the `"#{char}"` counters.  A `none`
field models an absent key (reading it raises `KeyError`). -/
structure JsonDict where
  fail : Option (List String)
  success : Option (List String)
  numChar : CharMap
  deriving DecidableEq

/-- The fresh dictionary `json_dict = {}` used when loading the ledger file
raised. -/
def emptyJsonDict : JsonDict := { fail := none, success := none, numChar := [] }

/-- Pad a number below 1000 to three digits (helper for the `'{:.3%}'`
format). -/
def padThree (n : Nat) : String :=
  (if n < 10 then "00" else if n < 100 then "0" else "") ++ toString n

/-- Round-to-nearest on `ℚ`: `⌊q + 1/2⌋`, computed as a floor division on
the numerator and denominator. -/
def ratRound (q : ℚ) : Int := Int.fdiv (2 * q.num + (q.den : Int)) (2 * (q.den : Int))

/-- `'{:.3%}'.format q`: the value as a percentage with three decimal
places.  The Python code formats a `float`; this model formats the exact
rational, rounding the third decimal of the percentage to nearest. -/
def formatPercent3 (q : ℚ) : String :=
  let m : Nat := (ratRound (q * 100000)).toNat
  toString (m / 1000) ++ "." ++ padThree (m % 1000) ++ "%"

/-- The ledger as written back to `partition.json` at the end of a run. -/
structure Ledger where
  fail : List String
  success : List String
  numChar : CharMap
  numTotal : Nat
  numFail : Int
  numSuccess : Nat
  successRate : String
  deriving DecidableEq

/-- The `force_update` reset: `json_dict[_FAIL] = []`,
`json_dict[_SUCCESS] = []` and `json_dict['#{char}'] = [0, 0]` for every
alphabet character. -/
def resetForceUpdate (chars : List Char) (d : JsonDict) : JsonDict :=
  { d with fail := some [], success := some [],
           numChar := chars.foldl (fun m c => setKey m c (0, 0)) d.numChar }

/-- The dictionary state after the load-and-maybe-reset prelude of
`partition_training_images_to_chars`: a failed load (`file = none`) starts
from `{}` and forces an update; otherwise the loaded dictionary is reset
exactly when `force_update` is set. -/
def effDict (chars : List Char) (file : Option JsonDict) (force_update : Bool) : JsonDict :=
  match file with
  | none => resetForceUpdate chars emptyJsonDict
  | some d => if force_update then resetForceUpdate chars d else d

/-- Mutable state of the per-sequence processing loop: the two label lists,
the per-character counters, and the character-image files written so far
(recorded by path, content abstracted away). -/
structure PState where
  success : List String
  fail : List String
  numChar : CharMap
  saved : List String
  deriving DecidableEq

/-- The inner `for i in range(seq_length)` loop of the partition driver for
one sequence: look up `seq[i]`, update that character's counters (both
counters on success, only the total otherwise), and on success with
`save` record the written file `'{char}/{seq}.{i+1}.png'`. -/
def processCharsAux (seq : String) (save isSuccess : Bool) :
    List Nat → CharMap → List String → Except PyErr (CharMap × List String)
  | [], m, sv => .ok (m, sv)
  | i :: is, m, sv =>
    match seq.data.get? i with
    | none => .error .indexError
    | some char =>
      match lookupKey m char with
      | none => .error .keyError
      | some sc =>
        let m2 := setKey m char (if isSuccess then (sc.1 + 1, sc.2 + 1) else (sc.1, sc.2 + 1))
        let sv2 :=
          if isSuccess && save then
            sv ++ [String.singleton char ++ "/" ++ seq ++ "." ++ toString (i + 1) ++ ".png"]
          else sv
        processCharsAux seq save isSuccess is m2 sv2

/-- The `for n in range(num_update)` loop: each unprocessed sequence is
segmented (outcome `rec seq`), appended to `success` or `fail`, and its
characters' counters are updated. -/
def processSeqs (seqLen : Nat) (rec : String → Bool) (save : Bool) :
    List String → PState → Except PyErr PState
  | [], st => .ok st
  | seq :: rest, st =>
    if rec seq then
      match processCharsAux seq save true (List.range seqLen) st.numChar st.saved with
      | .error e => .error e
      | .ok (m2, sv2) =>
        processSeqs seqLen rec save rest
          { success := st.success ++ [seq], fail := st.fail, numChar := m2, saved := sv2 }
    else
      match processCharsAux seq save false (List.range seqLen) st.numChar st.saved with
      | .error e => .error e
      | .ok (m2, sv2) =>
        processSeqs seqLen rec save rest
          { success := st.success, fail := st.fail ++ [seq], numChar := m2, saved := sv2 }

/-- Result of one completed run of the partition driver: the ledger written
back to `partition.json`, the returned `total_success_rate`, and the
character-image files written. -/
structure RunResult where
  ledger : Ledger
  rate : ℚ
  saved : List String
  deriving DecidableEq

/-- The epilogue of the partition driver: recompute the aggregate counters
from the final processing state, sort the two label lists, format the
success rate, and return the rewritten ledger together with the returned
rate (`numTotal` is the number of sequence labels in the training store). -/
def mkRunResult (numTotal : Nat) (st : PState) : RunResult :=
  let numSuccess := st.success.length
  let rate : ℚ := if numTotal = 0 then 0 else (numSuccess : ℚ) / (numTotal : ℚ)
  { ledger := { fail := List.insertionSort (· ≤ ·) st.fail,
                success := List.insertionSort (· ≤ ·) st.success,
                numChar := st.numChar,
                numTotal := numTotal,
                numFail := (numTotal : Int) - (numSuccess : Int),
                numSuccess := numSuccess,
                successRate := formatPercent3 rate },
    rate := rate, saved := st.saved }

/-- Body of `partition_training_images_to_chars` once the `'fail'` and
`'success'` keys have been read successfully. -/
def partitionCore (seqLen : Nat) (rec : String → Bool) (save : Bool)
    (seqs0 : List String) (oldFail oldSuccess : List String) (m : CharMap) :
    Except PyErr RunResult :=
  let oldSet := oldFail ++ oldSuccess
  let seqs := seqs0.filter (fun s => decide (¬ s ∈ oldSet))
  match processSeqs seqLen rec save seqs
      { success := oldSuccess, fail := oldFail, numChar := m, saved := [] } with
  | .error e => .error e
  | .ok st => .ok (mkRunResult seqs0.length st)

/-- `partition_training_images_to_chars(captcha_recognizer, force_update,
save)`.  `file` is the parsed content of `partition.json` (`none` when
`json.load` raised), `dir` the training-store directory listing.  A `.ok`
result is the rewritten ledger together with the returned success rate; an
`.error` result models an uncaught exception (the ledger file is then not
rewritten). -/
def partition_training_images_to_chars (chars : List Char) (seqLen : Nat)
    (rec : String → Bool) (file : Option JsonDict) (dir : List String)
    (force_update : Bool) (save : Bool) : Except PyErr RunResult :=
  let d := effDict chars file force_update
  match d.fail with
  | none => .error .keyError
  | some oldFail =>
    match d.success with
    | none => .error .keyError
    | some oldSuccess =>
      partitionCore seqLen rec save (list_basename dir) oldFail oldSuccess d.numChar

/-! ### The interactive acquisition loop (`_fetch_captchas_to_dir`) -/

/-- Observable events of one acquisition session: console interactions,
calls into the provider's canonicalization/validation, and file writes. -/
inductive FetchEv where
  | promptInput (s : String)
  | canonicalizeCall (s : String)
  | isValidCall (s : String)
  | invalidMsg
  | skipMsg
  | warnExistsMsg
  | savedFile (path : String)
  deriving DecidableEq

/-- The inner `while True` prompt loop for one CAPTCHA.  `resp j` is the
operator's `j`-th console entry for this image; `fuel` bounds the number of
re-prompts that will be modelled (the Python loop is unbounded; `none`
means the operator never resolved the prompt within `fuel` entries).
Returns the final value of `seq`: `none` when the loop broke on the skip
sentinel `"0"`, `some cs` when a canonicalized entry passed validation,
together with the events of the loop. -/
def promptRound (canon : String → String) (valid : String → Bool) (resp : Nat → String) :
    Nat → Nat → Option (Option String × List FetchEv)
  | 0, _ => none
  | fuel + 1, j =>
    let s := resp j
    if s = "0" then some (none, [.promptInput s])
    else
      let cs := canon s
      if valid cs then some (some cs, [.promptInput s, .canonicalizeCall s, .isValidCall cs])
      else
        match promptRound canon valid resp fuel (j + 1) with
        | none => none
        | some (r, evs) =>
          some (r, [.promptInput s, .canonicalizeCall s, .isValidCall cs, .invalidMsg] ++ evs)

/-- One iteration of the acquisition `for` loop: prompt for the sequence,
then skip (`seq == '0'`), refuse to overwrite an existing file, or save the
fetched image under `{seq}.png`.  The directory is an association list from
filename to image content. -/
def fetchIter {img_t : Type _} (canon : String → String) (valid : String → Bool)
    (resp : Nat → String) (fuel : Nat) (img : img_t) (dir : List (String × img_t)) :
    Option (List (String × img_t) × List FetchEv) :=
  match promptRound canon valid resp fuel 0 with
  | none => none
  | some (resOpt, evs) =>
    let seq := match resOpt with | none => "0" | some cs => cs
    if seq = "0" then some (dir, evs ++ [.skipMsg])
    else
      let path := addSuffix seq
      match lookupKey dir path with
      | some _ => some (dir, evs ++ [.warnExistsMsg])
      | none => some (setKey dir path img, evs ++ [.savedFile path])

/-- `_fetch_captchas_to_dir(directory, num)`: each element of `iters` is
one iteration's fetched image together with the operator's response stream
for that image. -/
def fetch_captchas_to_dir {img_t : Type _} (canon : String → String)
    (valid : String → Bool) (fuel : Nat) :
    List (img_t × (Nat → String)) → List (String × img_t) →
    Option (List (String × img_t) × List FetchEv)
  | [], dir => some (dir, [])
  | (img, resp) :: rest, dir =>
    match fetchIter canon valid resp fuel img dir with
    | none => none
    | some (dir2, evs) =>
      match fetch_captchas_to_dir canon valid fuel rest dir2 with
      | none => none
      | some (dirEnd, evsRest) => some (dirEnd, evs ++ evsRest)

/-- Modelled from the spec: ASCII case-folding on a single character
(`captcha_provider.py` is not part of the repository snapshot; §4.3 of the
spec describes `canonicalize_seq` as case-folding normalization). -/
def asciiLower (c : Char) : Char :=
  match c with
  | 'A' => 'a' | 'B' => 'b' | 'C' => 'c' | 'D' => 'd' | 'E' => 'e' | 'F' => 'f'
  | 'G' => 'g' | 'H' => 'h' | 'I' => 'i' | 'J' => 'j' | 'K' => 'k' | 'L' => 'l'
  | 'M' => 'm' | 'N' => 'n' | 'O' => 'o' | 'P' => 'p' | 'Q' => 'q' | 'R' => 'r'
  | 'S' => 's' | 'T' => 't' | 'U' => 'u' | 'V' => 'v' | 'W' => 'w' | 'X' => 'x'
  | 'Y' => 'y' | 'Z' => 'z'
  | other => other

/-- Modelled from the spec: the provider's `canonicalize_seq`, normalizing
operator-entered text by case-folding. -/
def specCanonicalizeSeq (s : String) : String := String.mk (s.data.map asciiLower)

/-! ### `_get_images` and its wrappers -/

/-- Result of `_get_images`: whether the too-many-requested warning was
printed, and the returned images (represented by their filenames; each
image is `_get_image(directory, filename)`, a function of the filename). -/
structure GetImagesResult where
  warned : Bool
  files : List String
  deriving DecidableEq

/-- `_get_images(directory, num, mode, return_basename, filename_filter)`.
A falsy `num` (absent, `None` or `0`) returns everything; a truthy `num`
larger than the store caps at the store size with a warning and no
shuffle; otherwise the filenames are shuffled (`shuffle` is the random
permutation used by `random.shuffle`) and the first `num` are returned. -/
def get_images (dir : List String) (num : Option Nat)
    (shuffle : List String → List String) (filenameFilter : String → Bool) :
    GetImagesResult :=
  let filenames := (list_png dir).filter filenameFilter
  match num with
  | none => { warned := false, files := filenames }
  | some 0 => { warned := false, files := filenames }
  | some (n + 1) =>
    if n + 1 > filenames.length then { warned := true, files := filenames }
    else { warned := false, files := (shuffle filenames).take (n + 1) }

/-- `get_test_images(num)` (no filename filter). -/
def get_test_images (dir : List String) (num : Option Nat)
    (shuffle : List String → List String) : GetImagesResult :=
  get_images dir num shuffle (fun _ => true)

/-- `get_training_images(num)` (returns basename/image pairs in the
source; the warning/cap behaviour is identical to `get_test_images`). -/
def get_training_images (dir : List String) (num : Option Nat)
    (shuffle : List String → List String) : GetImagesResult :=
  get_images dir num shuffle (fun _ => true)

/-- `get_training_char_images(char, num)`: grayscale character images of
one character's store, excluding identifiers in the fail-char set. -/
def get_training_char_images (dir : List String) (failCharSet : List String)
    (num : Option Nat) (shuffle : List String → List String) : GetImagesResult :=
  get_images dir num shuffle (fun fn => decide (¬ removeSuffix fn ∈ failCharSet))

/-! ### `captcha_learn` module state: model persistence and caches -/

/-- The process-wide mutable state of `captcha_learn`: the `_classifier`
cache, the `_predict_model` cache (a compiled prediction function,
represented by the classifier it was compiled from), and the
`best_model.pkl` file (`none` models an absent or unreadable file).
`model_t` is the type of trained classifiers. -/
structure LearnState (model_t : Type _) where
  classifier : Option model_t
  predictModel : Option model_t
  bestModelFile : Option model_t
  deriving DecidableEq

/-- `_update_classifier(classifier)`: set the cache and rewrite the
best-model file. -/
def update_classifier {model_t : Type _} (c : model_t) (st : LearnState model_t) :
    LearnState model_t :=
  { st with classifier := some c, bestModelFile := some c }

/-- `reconstruct_model(dry_run)`: train (the resulting classifier is the
oracle argument `trained`) and, unless `dry_run`, persist and activate
it. -/
def reconstruct_model {model_t : Type _} (trained : model_t) (dryRun : Bool)
    (st : LearnState model_t) : LearnState model_t :=
  if dryRun then st else update_classifier trained st

/-- `_load_classifier()`: unpickle the best-model file; on any failure,
report it, run `reconstruct_model()` synchronously and unpickle again. -/
def load_classifier {model_t : Type _} (trained : model_t) (st : LearnState model_t) :
    Except PyErr (model_t × LearnState model_t) :=
  match st.bestModelFile with
  | some c => .ok (c, st)
  | none =>
    let st2 := reconstruct_model trained false st
    match st2.bestModelFile with
    | some c => .ok (c, st2)
    | none => .error .modelLoadError

/-- `_get_classifier()`: lazily populate the `_classifier` cache. -/
def get_classifier {model_t : Type _} (trained : model_t) (st : LearnState model_t) :
    Except PyErr (model_t × LearnState model_t) :=
  match st.classifier with
  | some c => .ok (c, st)
  | none =>
    match load_classifier trained st with
    | .error e => .error e
    | .ok (c, st2) => .ok (c, { st2 with classifier := some c })

/-- `_get_predict_model()`: lazily compile the prediction function from the
cached classifier (the compiled function is represented by the classifier
it is wired to). -/
def get_predict_model {model_t : Type _} (trained : model_t) (st : LearnState model_t) :
    Except PyErr (model_t × LearnState model_t) :=
  match st.predictModel with
  | some p => .ok (p, st)
  | none =>
    match get_classifier trained st with
    | .error e => .error e
    | .ok (c, st2) => .ok (c, { st2 with predictModel := some c })

/-! ### The early-stopping training loop of `_construct_mlp` -/

/-- Mutable state of the training loop: `patience`, the best validation
loss so far (`none` models the initial `numpy.inf`), the iteration it was
attained at, the test score of the best model, the number of validation
checks performed so far (used to index the loss oracles), and the
`done_looping` flag. -/
structure EarlyStopState where
  patience : Nat
  bestValidationLoss : Option ℚ
  bestIter : Nat
  testScore : ℚ
  nChecks : Nat
  doneLooping : Bool
  deriving DecidableEq

/-- The state before the `while` loop: `patience = 10000`,
`best_validation_loss = numpy.inf`, `test_score = 0`. -/
def initEarlyStop : EarlyStopState :=
  { patience := 10000, bestValidationLoss := none, bestIter := 0, testScore := 0,
    nChecks := 0, doneLooping := false }

/-- `this_validation_loss < best_validation_loss` (anything is below the
initial `numpy.inf`). -/
def ltBest (q : ℚ) : Option ℚ → Bool
  | none => true
  | some b => decide (q < b)

/-- `this_validation_loss < best_validation_loss * improvement_threshold`
with `improvement_threshold = 0.995`. -/
def ltBestScaled (q : ℚ) : Option ℚ → Bool
  | none => true
  | some b => decide (q < b * (995 / 1000 : ℚ))

/-- The body of the inner `for minibatch_index in ...` loop for the batch
with global index `iter`: run the validation check when
`(iteration + 1) % validation_frequency == 0` (the `k`-th check observes
validation loss `valLoss k` and, on a new best, test loss `testLoss k`),
update `patience`/best-so-far per the early-stopping rule, then set
`done_looping` when `patience <= iteration`. -/
def processBatch (valLoss testLoss : Nat → ℚ) (freq : Nat) (iter : Nat)
    (st : EarlyStopState) : EarlyStopState :=
  let st2 :=
    if (iter + 1) % freq = 0 then
      let loss := valLoss st.nChecks
      let stc := { st with nChecks := st.nChecks + 1 }
      if ltBest loss st.bestValidationLoss then
        let stp :=
          if ltBestScaled loss st.bestValidationLoss then
            { stc with patience := max stc.patience (iter * 2) }
          else stc
        { stp with bestValidationLoss := some loss, bestIter := iter,
                   testScore := testLoss st.nChecks }
      else stc
    else st
  if st2.patience ≤ iter then { st2 with doneLooping := true } else st2

/-- The inner `for minibatch_index in range(n_train_batches)` loop of epoch
`epoch`, with `break` on `done_looping`. -/
def runBatchList (valLoss testLoss : Nat → ℚ) (freq nTB epoch : Nat) :
    List Nat → EarlyStopState → EarlyStopState
  | [], st => st
  | b :: rest, st =>
    let st2 := processBatch valLoss testLoss freq ((epoch - 1) * nTB + b) st
    if st2.doneLooping then st2
    else runBatchList valLoss testLoss freq nTB epoch rest st2

/-- The outer `while (epoch < n_epochs) and (not done_looping)` loop
(`fuel` counts the remaining epochs). -/
def runEpochs (valLoss testLoss : Nat → ℚ) (freq nTB : Nat) :
    Nat → Nat → EarlyStopState → EarlyStopState
  | 0, _, st => st
  | fuel + 1, epoch, st =>
    if st.doneLooping then st
    else runEpochs valLoss testLoss freq nTB fuel (epoch + 1)
      (runBatchList valLoss testLoss freq nTB (epoch + 1) (List.range nTB) st)

/-- The training loop of `_construct_mlp` (lines 484-548): early-stopping
parameters `patience = 10000`, `patience_increase = 2`,
`improvement_threshold = 0.995`.  `validation_frequency` is chosen by
`if T.lt(n_train_batches, patience / 2): ... else: ...`; the condition is
a symbolic Theano tensor, and truth-testing a symbolic tensor built by the
function form `T.lt` is unconditionally truthy (only the operator forms
set `_is_nonzero = False`), so the then-branch is always taken and
`validation_frequency = n_train_batches` regardless of `patience / 2`
(modelled by the constant-`True` condition).  The loss oracles give the
validation/test losses observed at each successive validation check. -/
def construct_mlp_loop (valLoss testLoss : Nat → ℚ) (nEpochs nTB : Nat) :
    EarlyStopState :=
  let validation_frequency := if True then nTB else 10000 / 2
  runEpochs valLoss testLoss validation_frequency nTB nEpochs 0 initEarlyStop

/-- Modelled from the spec: the early-stopping schedule as one flat pass
over the global iteration counter `0, 1, 2, ...` -- at most
`n_epochs * n_train_batches` minibatch iterations, validation every
`min(n_train_batches, patience / 2)` minibatches (initial patience 10000),
the patience-extension rule of `processBatch`, and halting as soon as the
iteration counter reaches or exceeds the current patience. -/
def trainingSpecLoop (valLoss testLoss : Nat → ℚ) (freq : Nat) :
    Nat → Nat → EarlyStopState → EarlyStopState
  | 0, _, st => st
  | fuel + 1, iter, st =>
    if st.doneLooping then st
    else trainingSpecLoop valLoss testLoss freq fuel (iter + 1)
      (processBatch valLoss testLoss freq iter st)

/-- Modelled from the spec: the whole training schedule described by the
specification (see `trainingSpecLoop`). -/
def trainingSpec (valLoss testLoss : Nat → ℚ) (nEpochs nTB : Nat) : EarlyStopState :=
  trainingSpecLoop valLoss testLoss (min nTB (10000 / 2)) (nEpochs * nTB) 0 initEarlyStop

/-! ### `tune_partition_parameter` -/

/-- `numpy.arange(start, stop, step)` over naturals. -/
def arange (start stop step : Nat) : List Nat :=
  (List.range ((stop - start + step - 1) / step)).map (fun k => start + k * step)

/-- `h_tol = np.arange(4, 8)`. -/
def h_tol : List Nat := arange 4 8 1

/-- `s_tol = np.arange(30, 50, 4)`. -/
def s_tol : List Nat := arange 30 50 4

/-- `v_tol = np.arange(50, 70, 4)`. -/
def v_tol : List Nat := arange 50 70 4

/-- A 3-D array of rationals as nested lists. -/
abbrev Arr3 := List (List (List ℚ))

/-- Replace the element at one position of a list, leaving the list
unchanged when the index is out of range. -/
def modifyAt {β : Type _} (f : β → β) : Nat → List β → List β
  | _, [] => []
  | 0, x :: xs => f x :: xs
  | n + 1, x :: xs => x :: modifyAt f n xs

/-- `rate[i, j, k] = q`. -/
def set3 (i j k : Nat) (q : ℚ) (arr : Arr3) : Arr3 :=
  modifyAt (fun plane => modifyAt (fun row => modifyAt (fun _ => q) k row) j plane) i arr

/-- `rate[i, j, k]`. -/
def get3 (arr : Arr3) (i j k : Nat) : Option ℚ :=
  match arr.get? i with
  | none => none
  | some plane =>
    match plane.get? j with
    | none => none
    | some row => row.get? k

/-- `np.zeros((a, b, c))`. -/
def zeros3 (a b c : Nat) : Arr3 :=
  List.replicate a (List.replicate b (List.replicate c 0))

/-- Well-formedness of a 3-D array: outer length `a`, every plane of `b`
rows of `c` entries. -/
def wf3 (a b c : Nat) (arr : Arr3) : Prop :=
  arr.length = a ∧ ∀ p ∈ arr, p.length = b ∧ ∀ r ∈ p, r.length = c

/-- The `partition.json` content produced by dumping a ledger (only the
keys that `partition_training_images_to_chars` reads back are modelled;
the aggregate keys it writes are never read). -/
def ledgerToDict (L : Ledger) : JsonDict :=
  { fail := some L.fail, success := some L.success, numChar := L.numChar }

/-- The grid of `(h, s, v)` tolerance combinations in loop order
(`h` outermost, `v` innermost). -/
def tuneTriples : List (Nat × Nat × Nat) :=
  h_tol.bind (fun h => s_tol.bind (fun s => v_tol.map (fun v => (h, s, v))))

/-- The nested `for h / for s / for v` loop of `tune_partition_parameter`:
each combination constructs a recognizer with tolerances
`(h/360, s/100, v/100)` (modelled by `recOf`), runs the partition driver
with `force_update=True, save=False`, stores the returned rate at index
`(h-4, (s-30)/4, (v-50)/4)`, and threads the rewritten `partition.json`
into the next run.  The accumulated list records every character-image
file written by the runs. -/
def tuneFold (chars : List Char) (seqLen : Nat)
    (recOf : ℚ → ℚ → ℚ → String → Bool) (dir : List String) :
    List (Nat × Nat × Nat) → Arr3 × Option JsonDict × List String →
    Except PyErr (Arr3 × Option JsonDict × List String)
  | [], acc => .ok acc
  | (h, s, v) :: rest, (arr, file, sv) =>
    match partition_training_images_to_chars chars seqLen
        (recOf ((h : ℚ) / 360) ((s : ℚ) / 100) ((v : ℚ) / 100)) file dir true false with
    | .error e => .error e
    | .ok res =>
      tuneFold chars seqLen recOf dir rest
        (set3 (h - 4) ((s - 30) / 4) ((v - 50) / 4) res.rate arr,
         some (ledgerToDict res.ledger), sv ++ res.saved)

/-- `l.argmax()` for a flat list: index of the first maximal element,
paired with that maximum (`numpy` returns the first maximum in row-major
order). -/
def argmaxList : List ℚ → Nat × ℚ
  | [] => (0, 0)
  | [x] => (0, x)
  | x :: y :: rest =>
    let im := argmaxList (y :: rest)
    if im.2 > x then (im.1 + 1, im.2) else (0, x)

/-- Row-major flattening of a 3-D array. -/
def flatten3 (arr : Arr3) : List ℚ :=
  arr.bind (fun plane => plane.bind (fun row => row))

/-- `np.unravel_index(n, (4, 5, 5))`. -/
def unravel455 (n : Nat) : Nat × Nat × Nat := (n / 25, n / 5 % 5, n % 5)

/-- Result of `tune_partition_parameter`: the persisted `gridsearch.npy`
array, the reported best index and value, and all character-image files
written during the sweep. -/
structure TuneResult where
  rate : Arr3
  bestIdx : Nat × Nat × Nat
  bestVal : ℚ
  savedCharFiles : List String
  deriving DecidableEq

/-- `tune_partition_parameter()`. -/
def tune_partition_parameter (chars : List Char) (seqLen : Nat)
    (recOf : ℚ → ℚ → ℚ → String → Bool) (file : Option JsonDict)
    (dir : List String) : Except PyErr TuneResult :=
  match tuneFold chars seqLen recOf dir tuneTriples
      (zeros3 h_tol.length s_tol.length v_tol.length, file, []) with
  | .error e => .error e
  | .ok (arr, _, sv) =>
    let am := argmaxList (flatten3 arr)
    .ok { rate := arr, bestIdx := unravel455 am.1, bestVal := am.2, savedCharFiles := sv }

/-- The success rate of one forced partition run as a function of the
store and the recognizer outcome: successfully segmented labels over all
labels (0 for an empty store). -/
def specRate (rec : String → Bool) (dir : List String) : ℚ :=
  if (list_basename dir).length = 0 then 0
  else (((list_basename dir).filter rec).length : ℚ) / (((list_basename dir).length : Nat) : ℚ)

/-- The zero-based array index `(h-4, (s-30)/4, (v-50)/4)` used by the
tuning sweep for the combination `(h, s, v)`. -/
def tuneIdx (t : Nat × Nat × Nat) : Nat × Nat × Nat :=
  (t.1 - 4, (t.2.1 - 30) / 4, (t.2.2 - 50) / 4)

/-- The success rate produced by the forced partition run for the
combination `(h, s, v)` over a well-formed store. -/
def tuneRate (recOf : ℚ → ℚ → ℚ → String → Bool) (dir : List String)
    (t : Nat × Nat × Nat) : ℚ :=
  specRate (recOf ((t.1 : ℚ) / 360) ((t.2.1 : ℚ) / 100) ((t.2.2 : ℚ) / 100)) dir

/-- The final grid-search array: every sweep combination's rate stored at
its `tuneIdx` position in the zero-initialized 4×5×5 array. -/
def tuneArr (recOf : ℚ → ℚ → ℚ → String → Bool) (dir : List String) : Arr3 :=
  tuneTriples.foldl (fun a u => set3 (tuneIdx u).1 (tuneIdx u).2.1 (tuneIdx u).2.2
    (tuneRate recOf dir u) a) (zeros3 h_tol.length s_tol.length v_tol.length)

theorem processSeqs_ok_lists (seqLen : Nat) (rec : String → Bool) (save : Bool) :
    ∀ (seqs : List String) (st st' : PState),
    processSeqs seqLen rec save seqs st = .ok st' →
    st'.success = st.success ++ seqs.filter rec ∧
    st'.fail = st.fail ++ seqs.filter (fun s => !(rec s)) := by
  intro seqs
  induction seqs with
  | nil =>
    intro st st' h
    simp only [processSeqs, Except.ok.injEq] at h
    simp [← h]
  | cons seq rest ih =>
    intro st st' h
    cases hrec : rec seq with
    | true =>
      cases hpc : processCharsAux seq save true (List.range seqLen) st.numChar st.saved with
      | error e => simp [processSeqs, hrec, hpc] at h
      | ok pair =>
        obtain ⟨m2, sv2⟩ := pair
        simp only [processSeqs, hrec, hpc, if_true] at h
        have := ih _ _ h
        simp only at this
        simp [this.1, this.2, List.filter_cons, hrec]
    | false =>
      cases hpc : processCharsAux seq save false (List.range seqLen) st.numChar st.saved with
      | error e => simp [processSeqs, hrec, hpc] at h
      | ok pair =>
        obtain ⟨m2, sv2⟩ := pair
        simp only [processSeqs, hrec, hpc, Bool.false_eq_true, if_false] at h
        have := ih _ _ h
        simp only at this
        simp [this.1, this.2, List.filter_cons, hrec]

theorem processCharsAux_nosave (seq : String) (isSuccess : Bool) :
    ∀ (is : List Nat) (m : CharMap) (sv : List String) (m2 : CharMap) (sv2 : List String),
    processCharsAux seq false isSuccess is m sv = .ok (m2, sv2) → sv2 = sv := by
  intro is
  induction is with
  | nil =>
    intro m sv m2 sv2 h
    simp only [processCharsAux, Except.ok.injEq, Prod.mk.injEq] at h
    exact h.2.symm
  | cons i rest ih =>
    intro m sv m2 sv2 h
    cases hg : seq.data.get? i with
    | none =>
      simp only [processCharsAux, hg] at h
      exact Except.noConfusion h
    | some char =>
      cases hl : lookupKey m char with
      | none =>
        simp only [processCharsAux, hg, hl] at h
        exact Except.noConfusion h
      | some sc =>
        simp only [processCharsAux, hg, hl, Bool.and_false, Bool.false_eq_true,
          if_false] at h
        exact ih _ _ _ _ h

theorem processSeqs_nosave (seqLen : Nat) (rec : String → Bool) :
    ∀ (seqs : List String) (st st' : PState),
    processSeqs seqLen rec false seqs st = .ok st' → st'.saved = st.saved := by
  intro seqs
  induction seqs with
  | nil =>
    intro st st' h
    simp only [processSeqs, Except.ok.injEq] at h
    simp [← h]
  | cons seq rest ih =>
    intro st st' h
    cases hrec : rec seq with
    | true =>
      cases hpc : processCharsAux seq false true (List.range seqLen) st.numChar st.saved with
      | error e => simp [processSeqs, hrec, hpc] at h
      | ok pair =>
        obtain ⟨m2, sv2⟩ := pair
        simp only [processSeqs, hrec, hpc, if_true] at h
        have h1 := ih _ _ h
        have h2 := processCharsAux_nosave seq true _ _ _ _ _ hpc
        simp only at h1
        rw [h1, h2]
    | false =>
      cases hpc : processCharsAux seq false false (List.range seqLen) st.numChar st.saved with
      | error e => simp [processSeqs, hrec, hpc] at h
      | ok pair =>
        obtain ⟨m2, sv2⟩ := pair
        simp only [processSeqs, hrec, hpc, Bool.false_eq_true, if_false] at h
        have h1 := ih _ _ h
        have h2 := processCharsAux_nosave seq false _ _ _ _ _ hpc
        simp only at h1
        rw [h1, h2]

theorem partitionCore_ok_shape (seqLen : Nat) (rec : String → Bool) (save : Bool)
    (seqs0 oldFail oldSuccess : List String) (m : CharMap) (res : RunResult)
    (h : partitionCore seqLen rec save seqs0 oldFail oldSuccess m = .ok res) :
    ∃ st, processSeqs seqLen rec save
        (seqs0.filter (fun s => decide (¬ s ∈ oldFail ++ oldSuccess)))
        { success := oldSuccess, fail := oldFail, numChar := m, saved := [] } = .ok st
      ∧ res = mkRunResult seqs0.length st := by
  simp only [partitionCore] at h
  cases hps : processSeqs seqLen rec save
      (seqs0.filter (fun s => decide (¬ s ∈ oldFail ++ oldSuccess)))
      { success := oldSuccess, fail := oldFail, numChar := m, saved := [] } with
  | error e => rw [hps] at h; simp at h
  | ok st =>
    rw [hps] at h
    simp only [Except.ok.injEq] at h
    exact ⟨st, rfl, h.symm⟩

theorem partition_ok_shape (chars : List Char) (seqLen : Nat) (rec : String → Bool)
    (file : Option JsonDict) (dir : List String) (force_update save : Bool)
    (res : RunResult)
    (h : partition_training_images_to_chars chars seqLen rec file dir force_update save
        = .ok res) :
    ∃ oldFail oldSuccess,
      (effDict chars file force_update).fail = some oldFail ∧
      (effDict chars file force_update).success = some oldSuccess ∧
      partitionCore seqLen rec save (list_basename dir) oldFail oldSuccess
        (effDict chars file force_update).numChar = .ok res := by
  simp only [partition_training_images_to_chars] at h
  cases hf : (effDict chars file force_update).fail with
  | none => rw [hf] at h; simp at h
  | some oldFail =>
    rw [hf] at h
    cases hs : (effDict chars file force_update).success with
    | none => rw [hs] at h; simp at h
    | some oldSuccess =>
      rw [hs] at h
      exact ⟨oldFail, oldSuccess, rfl, rfl, h⟩

/-- C1: after every completed run of the partition driver, the persisted
ledger has disjoint `success`/`fail` lists covering exactly the previously
recorded labels plus the training store's labels, both sorted ascending,
with `'###total'` the store's sequence count, `'##success' + '##fail' =
'###total'`, and `'##success_rate'` the formatted quotient. -/
theorem partition_ledger_invariant (chars : List Char) (seqLen : Nat)
    (rec : String → Bool) (file : Option JsonDict) (dir : List String)
    (force_update save : Bool) (res : RunResult)
    (hdisj : ∀ s, s ∈ ((effDict chars file force_update).fail).getD [] →
        ¬ s ∈ ((effDict chars file force_update).success).getD [])
    (hrun : partition_training_images_to_chars chars seqLen rec file dir force_update save
        = .ok res) :
    (∀ s, s ∈ res.ledger.success → ¬ s ∈ res.ledger.fail)
    ∧ (∀ s, (s ∈ res.ledger.success ∨ s ∈ res.ledger.fail) ↔
          (s ∈ ((effDict chars file force_update).fail).getD []
            ∨ s ∈ ((effDict chars file force_update).success).getD []
            ∨ s ∈ list_basename dir))
    ∧ List.Sorted (· ≤ ·) res.ledger.success
    ∧ List.Sorted (· ≤ ·) res.ledger.fail
    ∧ res.ledger.numTotal = (list_basename dir).length
    ∧ (res.ledger.numSuccess : Int) + res.ledger.numFail = (res.ledger.numTotal : Int)
    ∧ res.ledger.successRate
        = formatPercent3 (if res.ledger.numTotal = 0 then 0
            else (res.ledger.numSuccess : ℚ) / (res.ledger.numTotal : ℚ)) := by
  obtain ⟨oldFail, oldSuccess, hf, hs, hcore⟩ :=
    partition_ok_shape _ _ _ _ _ _ _ _ hrun
  obtain ⟨st, hps, hres⟩ := partitionCore_ok_shape _ _ _ _ _ _ _ _ hcore
  obtain ⟨hsucc, hfail⟩ := processSeqs_ok_lists _ _ _ _ _ _ hps
  simp only at hsucc hfail
  rw [hf, hs] at hdisj
  simp only [Option.getD_some] at hdisj
  rw [hf, hs]
  simp only [Option.getD_some]
  subst hres
  have hmemS : ∀ s, s ∈ (mkRunResult (list_basename dir).length st).ledger.success ↔
      s ∈ oldSuccess ∨ ((s ∈ list_basename dir ∧ ¬ s ∈ oldFail ∧ ¬ s ∈ oldSuccess)
        ∧ rec s = true) := by
    intro s
    simp only [mkRunResult, List.mem_insertionSort, hsucc, List.mem_append,
      List.mem_filter, decide_eq_true_eq, List.mem_append, not_or]
  have hmemF : ∀ s, s ∈ (mkRunResult (list_basename dir).length st).ledger.fail ↔
      s ∈ oldFail ∨ ((s ∈ list_basename dir ∧ ¬ s ∈ oldFail ∧ ¬ s ∈ oldSuccess)
        ∧ rec s = false) := by
    intro s
    simp only [mkRunResult, List.mem_insertionSort, hfail, List.mem_append,
      List.mem_filter, decide_eq_true_eq, Bool.not_eq_true', List.mem_append, not_or]
  refine ⟨?_, ?_, ?_, ?_, ?_, ?_, ?_⟩
  · intro s h1 h2
    rw [hmemS] at h1
    rw [hmemF] at h2
    rcases h1 with h1 | ⟨⟨_, h1a, h1b⟩, h1r⟩
    · rcases h2 with h2 | ⟨⟨_, _, h2b⟩, _⟩
      · exact hdisj s h2 h1
      · exact h2b h1
    · rcases h2 with h2 | ⟨_, h2r⟩
      · exact h1a h2
      · rw [h1r] at h2r
        exact Bool.noConfusion h2r
  · intro s
    rw [hmemS, hmemF]
    constructor
    · rintro ((h | ⟨⟨hd, _, _⟩, _⟩) | (h | ⟨⟨hd, _, _⟩, _⟩))
      · exact Or.inr (Or.inl h)
      · exact Or.inr (Or.inr hd)
      · exact Or.inl h
      · exact Or.inr (Or.inr hd)
    · intro h
      by_cases hof : s ∈ oldFail
      · exact Or.inr (Or.inl hof)
      by_cases hos : s ∈ oldSuccess
      · exact Or.inl (Or.inl hos)
      rcases h with h | h | h
      · exact absurd h hof
      · exact absurd h hos
      cases hrec : rec s with
      | false => exact Or.inr (Or.inr ⟨⟨h, hof, hos⟩, rfl⟩)
      | true => exact Or.inl (Or.inr ⟨⟨h, hof, hos⟩, rfl⟩)
  · simp only [mkRunResult]
    exact List.sorted_insertionSort _ _
  · simp only [mkRunResult]
    exact List.sorted_insertionSort _ _
  · simp [mkRunResult]
  · simp only [mkRunResult]
    omega
  · simp [mkRunResult]

/-- C2: the partition driver returns the number of labels recorded as
successfully segmented divided by the number of sequence labels in the
training store, and 0 when the store is empty. -/
theorem partition_returns_success_rate (chars : List Char) (seqLen : Nat)
    (rec : String → Bool) (file : Option JsonDict) (dir : List String)
    (force_update save : Bool) (res : RunResult)
    (hrun : partition_training_images_to_chars chars seqLen rec file dir force_update save
        = .ok res) :
    res.rate = (if (list_basename dir).length = 0 then 0
      else (res.ledger.numSuccess : ℚ) / (((list_basename dir).length : Nat) : ℚ))
    ∧ res.ledger.numSuccess = res.ledger.success.length := by
  obtain ⟨oldFail, oldSuccess, hf, hs, hcore⟩ :=
    partition_ok_shape _ _ _ _ _ _ _ _ hrun
  obtain ⟨st, hps, hres⟩ := partitionCore_ok_shape _ _ _ _ _ _ _ _ hcore
  subst hres
  constructor
  · simp [mkRunResult]
  · simp [mkRunResult, List.length_insertionSort]

attribute [local semireducible] Rat.add Rat.mul Rat.inv Rat.sub in
/-- Witness for `partition_returns_success_rate`: a one-element store whose
only CAPTCHA fails segmentation gives rate 0. -/
theorem partition_returns_success_rate_witness :
    (0 : ℚ) = (if (list_basename ["a.png"]).length = 0 then 0
      else (((0 : Nat)) : ℚ) / (((list_basename ["a.png"]).length : Nat) : ℚ))
    ∧ (0 : Nat) = (0 : Nat) :=
  partition_returns_success_rate ['a'] 1 (fun _ => false) none ["a.png"] false true
    { ledger := { fail := ["a"], success := [], numChar := [('a', (0, 1))],
                  numTotal := 1, numFail := 1, numSuccess := 0,
                  successRate := "0.000%" },
      rate := 0, saved := [] }
    (by decide)

attribute [local semireducible] Rat.add Rat.mul Rat.inv Rat.sub in
/-- Witness for `partition_ledger_invariant`: a fresh ledger over a
two-element store, one success (`"ab"`) and one failure (`"bb"`). -/
theorem partition_ledger_invariant_witness :
    (∀ s, s ∈ (([] : List String)) → ¬ s ∈ (([] : List String)))
    ∧ ((∀ s, s ∈ ["ab"] → ¬ s ∈ ["bb"])
      ∧ (∀ s, (s ∈ ["ab"] ∨ s ∈ ["bb"]) ↔
            (s ∈ ([] : List String) ∨ s ∈ ([] : List String) ∨ s ∈ ["ab", "bb"]))
      ∧ List.Sorted (· ≤ ·) ["ab"]
      ∧ List.Sorted (· ≤ ·) ["bb"]
      ∧ (2 : Nat) = (2 : Nat)
      ∧ ((1 : Nat) : Int) + (1 : Int) = ((2 : Nat) : Int)
      ∧ "50.000%" = formatPercent3 (if (2 : Nat) = 0 then 0
          else ((1 : Nat) : ℚ) / ((2 : Nat) : ℚ))) :=
  ⟨fun s h => absurd h (List.not_mem_nil s),
   partition_ledger_invariant ['a', 'b'] 2 (fun s => s == "ab") none
    ["ab.png", "bb.png"] false true
    { ledger := { fail := ["bb"], success := ["ab"],
                  numChar := [('a', (1, 1)), ('b', (1, 3))],
                  numTotal := 2, numFail := 1, numSuccess := 1,
                  successRate := "50.000%" },
      rate := 1 / 2, saved := ["a/ab.1.png", "b/ab.2.png"] }
    (fun s h => absurd h (List.not_mem_nil s))
    (by decide)⟩

theorem lookupKey_setKey {κ α : Type _} [DecidableEq κ] :
    ∀ (m : List (κ × α)) (k : κ) (v : α) (c : κ),
    lookupKey (setKey m k v) c = if c = k then some v else lookupKey m c := by
  intro m
  induction m with
  | nil => intro k v c; simp [setKey, lookupKey]
  | cons p rest ih =>
    intro k v c
    obtain ⟨k0, w⟩ := p
    by_cases hk : k = k0 <;> by_cases hc : c = k0 <;>
      simp_all [setKey, lookupKey]
    rw [if_neg (fun h => hk h.symm)]

theorem processCharsAux_keys_mono (seq : String) (save isSuccess : Bool) :
    ∀ (is : List Nat) (m : CharMap) (sv : List String) (m2 : CharMap) (sv2 : List String),
    processCharsAux seq save isSuccess is m sv = .ok (m2, sv2) →
    ∀ c, (lookupKey m2 c).isSome = true → (lookupKey m c).isSome = true := by
  intro is
  induction is with
  | nil =>
    intro m sv m2 sv2 h c hc
    simp only [processCharsAux, Except.ok.injEq, Prod.mk.injEq] at h
    rw [h.1]
    exact hc
  | cons i rest ih =>
    intro m sv m2 sv2 h c hc
    cases hg : seq.data.get? i with
    | none =>
      simp only [processCharsAux, hg] at h
      exact Except.noConfusion h
    | some char =>
      cases hl : lookupKey m char with
      | none =>
        simp only [processCharsAux, hg, hl] at h
        exact Except.noConfusion h
      | some sc =>
        simp only [processCharsAux, hg, hl] at h
        have hstep := ih _ _ _ _ h c hc
        rw [lookupKey_setKey] at hstep
        by_cases hcc : c = char
        · subst hcc
          rw [hl]
          rfl
        · rw [if_neg hcc] at hstep
          exact hstep

theorem processCharsAux_error_keyError (seq : String) (save isSuccess : Bool) :
    ∀ (is : List Nat) (m : CharMap) (sv : List String) (e : PyErr),
    (∀ i ∈ is, (seq.data.get? i).isSome = true) →
    processCharsAux seq save isSuccess is m sv = .error e → e = .keyError := by
  intro is
  induction is with
  | nil =>
    intro m sv e _ h
    simp only [processCharsAux] at h
    exact Except.noConfusion h
  | cons i rest ih =>
    intro m sv e hidx h
    cases hg : seq.data.get? i with
    | none =>
      have := hidx i (List.mem_cons_self i rest)
      rw [hg] at this
      exact Bool.noConfusion this
    | some char =>
      cases hl : lookupKey m char with
      | none =>
        simp only [processCharsAux, hg, hl, Except.error.injEq] at h
        exact h.symm
      | some sc =>
        simp only [processCharsAux, hg, hl] at h
        exact ih _ _ _ (fun j hj => hidx j (List.mem_cons_of_mem i hj)) h

theorem processCharsAux_hits_missing (seq : String) (save isSuccess : Bool)
    (m0 : CharMap) (c : Char) (hnone : lookupKey m0 c = none) :
    ∀ (is : List Nat) (m : CharMap) (sv : List String) (i0 : Nat),
    i0 ∈ is → seq.data.get? i0 = some c →
    (∀ i ∈ is, (seq.data.get? i).isSome = true) →
    (∀ x, (lookupKey m x).isSome = true → (lookupKey m0 x).isSome = true) →
    processCharsAux seq save isSuccess is m sv = .error .keyError := by
  intro is
  induction is with
  | nil =>
    intro m sv i0 hi0 _ _ _
    exact absurd hi0 (List.not_mem_nil i0)
  | cons i rest ih =>
    intro m sv i0 hi0 hget hidx hsub
    have hgi : (seq.data.get? i).isSome = true := hidx i (List.mem_cons_self i rest)
    cases hg : seq.data.get? i with
    | none => rw [hg] at hgi; exact Bool.noConfusion hgi
    | some char =>
      cases hl : lookupKey m char with
      | none => simp only [processCharsAux, hg, hl]
      | some sc =>
        simp only [processCharsAux, hg, hl]
        rcases List.mem_cons.mp hi0 with hi0 | hi0
        · subst hi0
          rw [hget] at hg
          have hchar : char = c := (Option.some.inj hg).symm
          subst hchar
          have : (lookupKey m0 char).isSome = true := by
            apply hsub
            rw [hl]
            rfl
          rw [hnone] at this
          exact Bool.noConfusion this
        · apply ih _ _ i0 hi0 hget (fun j hj => hidx j (List.mem_cons_of_mem i hj))
          intro x hx
          rw [lookupKey_setKey] at hx
          by_cases hxc : x = char
          · subst hxc
            apply hsub
            rw [hl]
            rfl
          · rw [if_neg hxc] at hx
            exact hsub x hx

theorem processSeqs_hits_missing (seqLen : Nat) (rec : String → Bool) (save : Bool)
    (m0 : CharMap) (c : Char) (hnone : lookupKey m0 c = none) :
    ∀ (seqs : List String) (st : PState) (seqT : String) (i0 : Nat),
    seqT ∈ seqs → i0 < seqLen → seqT.data.get? i0 = some c →
    (∀ seq ∈ seqs, seqLen ≤ seq.data.length) →
    (∀ x, (lookupKey st.numChar x).isSome = true → (lookupKey m0 x).isSome = true) →
    processSeqs seqLen rec save seqs st = .error .keyError := by
  intro seqs
  induction seqs with
  | nil =>
    intro st seqT i0 hT _ _ _ _
    exact absurd hT (List.not_mem_nil seqT)
  | cons seq rest ih =>
    intro st seqT i0 hT hi0 hget hlen hsub
    have hidx : ∀ i ∈ List.range seqLen, (seq.data.get? i).isSome = true := by
      intro i hi
      have hlt : i < seq.data.length :=
        Nat.lt_of_lt_of_le (List.mem_range.mp hi) (hlen seq (List.mem_cons_self seq rest))
      rw [List.get?_eq_get hlt]
      rfl
    have hmain : ∀ (isS : Bool),
        (processCharsAux seq save isS (List.range seqLen) st.numChar st.saved = .error .keyError)
        ∨ (∃ m2 sv2, processCharsAux seq save isS (List.range seqLen) st.numChar st.saved
            = .ok (m2, sv2)
          ∧ (∀ x, (lookupKey m2 x).isSome = true → (lookupKey m0 x).isSome = true)) := by
      intro isS
      cases hpc : processCharsAux seq save isS (List.range seqLen) st.numChar st.saved with
      | error e =>
        left
        rw [processCharsAux_error_keyError seq save isS _ _ _ _ hidx hpc]
      | ok pair =>
        right
        obtain ⟨m2, sv2⟩ := pair
        exact ⟨m2, sv2, rfl,
          fun x hx => hsub x (processCharsAux_keys_mono seq save isS _ _ _ _ _ hpc x hx)⟩
    rcases List.mem_cons.mp hT with hT | hT
    · -- the head is the sequence containing the missing-counter character
      subst hT
      have hcontra : ∀ (isS : Bool),
          processCharsAux seqT save isS (List.range seqLen) st.numChar st.saved
            = .error .keyError :=
        fun isS => processCharsAux_hits_missing seqT save isS m0 c hnone _ _ _ i0
          (List.mem_range.mpr hi0) hget hidx hsub
      cases hrec : rec seqT with
      | true => simp [processSeqs, hrec, hcontra true]
      | false => simp [processSeqs, hrec, hcontra false]
    · -- the target sequence is further down the list
      cases hrec : rec seq with
      | true =>
        rcases hmain true with hpc | ⟨m2, sv2, hpc, hsub2⟩
        · simp [processSeqs, hrec, hpc]
        · simp only [processSeqs, hrec, hpc, if_true]
          exact ih _ seqT i0 hT hi0 hget
            (fun s hscomm => hlen s (List.mem_cons_of_mem seq hscomm)) hsub2
      | false =>
        rcases hmain false with hpc | ⟨m2, sv2, hpc, hsub2⟩
        · simp [processSeqs, hrec, hpc]
        · simp only [processSeqs, hrec, hpc, Bool.false_eq_true, if_false]
          exact ih _ seqT i0 hT hi0 hget
            (fun s hscomm => hlen s (List.mem_cons_of_mem seq hscomm)) hsub2

/-- C10 (amended): the partition driver rebuilds the ledger from the empty
dictionary (with a forced update) exactly when reading `partition.json`
raised; when the file parses but, with `force_update` false, lacks the
`'fail'` or `'success'` key, or lacks the `'#{char}'` counter of a
character occurring in an unprocessed full-length label, the run raises an
uncaught `KeyError` and the ledger is not rewritten (no `.ok` result).
With `force_update` true those keys are recreated by the reset, so no
`KeyError` arises from them (see the counterexample). -/
theorem partition_missing_keys_keyerror (chars : List Char) (seqLen : Nat) :
    (∀ (fu save : Bool) (rec : String → Bool) (dir : List String),
        partition_training_images_to_chars chars seqLen rec none dir fu save
          = partition_training_images_to_chars chars seqLen rec (some emptyJsonDict)
              dir true save)
    ∧ (∀ (d : JsonDict) (rec : String → Bool) (dir : List String) (save : Bool),
        (d.fail = none ∨ d.success = none) →
        partition_training_images_to_chars chars seqLen rec (some d) dir false save
          = .error .keyError)
    ∧ (∀ (d : JsonDict) (rec : String → Bool) (dir : List String) (save : Bool)
        (oldFail oldSuccess : List String) (seqT : String) (i0 : Nat) (c : Char),
        d.fail = some oldFail → d.success = some oldSuccess →
        (∀ s ∈ list_basename dir, seqLen ≤ s.data.length) →
        seqT ∈ list_basename dir → ¬ seqT ∈ oldFail ++ oldSuccess →
        i0 < seqLen → seqT.data.get? i0 = some c →
        lookupKey d.numChar c = none →
        partition_training_images_to_chars chars seqLen rec (some d) dir false save
          = .error .keyError) := by
  refine ⟨fun _ _ _ _ => rfl, ?_, ?_⟩
  · intro d rec dir save h
    rcases h with h | h
    · simp [partition_training_images_to_chars, effDict, h]
    · cases hf : d.fail with
      | none => simp [partition_training_images_to_chars, effDict, hf]
      | some oldFail => simp [partition_training_images_to_chars, effDict, hf, h]
  · intro d rec dir save oldFail oldSuccess seqT i0 c hf hs hlen hT hTnotold hi0 hget hnone
    have hps : processSeqs seqLen rec save
        ((list_basename dir).filter (fun s => decide (¬ s ∈ oldFail ++ oldSuccess)))
        { success := oldSuccess, fail := oldFail, numChar := d.numChar, saved := [] }
        = .error .keyError := by
      apply processSeqs_hits_missing seqLen rec save d.numChar c hnone _ _ seqT i0
      · exact List.mem_filter.mpr ⟨hT, by simpa using hTnotold⟩
      · exact hi0
      · exact hget
      · intro s hsf
        exact hlen s (List.mem_filter.mp hsf).1
      · intro x hx
        exact hx
    have hd : effDict chars (some d) false = d := by simp [effDict]
    simp only [partition_training_images_to_chars, hd, hf, hs, partitionCore]
    rw [hps]

/-- Counterexample to C10 as stated: a successfully parsed ledger lacking
both the `'fail'` and the `'success'` key does not raise `KeyError` when
`force_update` is set -- the forced reset recreates the keys and the run
completes (rewriting the ledger). -/
theorem partition_missing_keys_claim_counterexample :
    exceptIsOk (partition_training_images_to_chars ['a'] 1 (fun _ => true)
      (some emptyJsonDict) ["a.png"] true true) = true := by decide

/-- Witness for `partition_missing_keys_keyerror`: with `force_update`
false, a ledger with empty `'fail'`/`'success'` lists and no `'#b'` key
raises `KeyError` on the unprocessed label `"b"`. -/
theorem partition_missing_keys_keyerror_witness :
    partition_training_images_to_chars ['a'] 1 (fun _ => true)
      (some { fail := some [], success := some [], numChar := [] }) ["b.png"] false true
      = .error .keyError :=
  (partition_missing_keys_keyerror ['a'] 1).2.2
    { fail := some [], success := some [], numChar := [] }
    (fun _ => true) ["b.png"] true [] [] "b" 0 'b' rfl rfl
    (by decide) (by decide) (by decide) (by decide) (by decide) rfl

/-- C5: after `reconstruct_model(dry_run=False)` in a process whose
prediction-function cache is already populated, the classifier cache holds
the newly trained classifier but the cached prediction function is
unchanged, and subsequent `predict` calls still obtain the previously
compiled function (wired to the old model). -/
theorem reconstruct_model_stale_predict_cache {model_t : Type _}
    (st : LearnState model_t) (trained p : model_t)
    (hp : st.predictModel = some p) :
    (reconstruct_model trained false st).classifier = some trained
    ∧ (reconstruct_model trained false st).predictModel = some p
    ∧ (∀ t2, get_predict_model t2 (reconstruct_model trained false st)
        = .ok (p, reconstruct_model trained false st)) := by
  have hp2 : (reconstruct_model trained false st).predictModel = some p := hp
  refine ⟨rfl, hp2, fun t2 => ?_⟩
  simp [get_predict_model, hp2]

/-- Witness for `reconstruct_model_stale_predict_cache`: with classifier 1
cached and its compiled prediction function cached, retraining to
classifier 2 leaves prediction wired to 1. -/
theorem reconstruct_model_stale_predict_cache_witness :
    (reconstruct_model 2 false (⟨some 1, some 1, some 1⟩ : LearnState Nat)).classifier = some 2
    ∧ (reconstruct_model 2 false (⟨some 1, some 1, some 1⟩ : LearnState Nat)).predictModel
        = some 1
    ∧ (∀ t2, get_predict_model t2 (reconstruct_model 2 false
          (⟨some 1, some 1, some 1⟩ : LearnState Nat))
        = .ok (1, reconstruct_model 2 false (⟨some 1, some 1, some 1⟩ : LearnState Nat))) :=
  reconstruct_model_stale_predict_cache ⟨some 1, some 1, some 1⟩ 2 1 rfl

/-- C6: `_load_classifier` returns the persisted classifier directly on a
successful first read (no reconstruction); when the read fails it runs a
full `reconstruct_model()` (which rewrites the best-model file), reads the
file again and returns the freshly trained classifier. -/
theorem load_classifier_reconstructs_on_failure {model_t : Type _}
    (st : LearnState model_t) (trained c : model_t) :
    (st.bestModelFile = none →
        load_classifier trained st = .ok (trained, reconstruct_model trained false st)
        ∧ (reconstruct_model trained false st).bestModelFile = some trained)
    ∧ (st.bestModelFile = some c → load_classifier trained st = .ok (c, st)) := by
  constructor
  · intro h
    exact ⟨by simp [load_classifier, h, reconstruct_model, update_classifier], rfl⟩
  · intro h
    simp [load_classifier, h]

/-- Witness for `load_classifier_reconstructs_on_failure`: loading with a
missing best-model file reconstructs and returns the freshly trained
classifier. -/
theorem load_classifier_reconstructs_on_failure_witness :
    ((⟨none, none, none⟩ : LearnState Nat).bestModelFile = none →
        load_classifier 7 (⟨none, none, none⟩ : LearnState Nat)
          = .ok (7, reconstruct_model 7 false ⟨none, none, none⟩)
        ∧ (reconstruct_model 7 false (⟨none, none, none⟩ : LearnState Nat)).bestModelFile
            = some 7)
    ∧ ((⟨none, none, none⟩ : LearnState Nat).bestModelFile = some 3 →
        load_classifier 7 (⟨none, none, none⟩ : LearnState Nat) = .ok (3, ⟨none, none, none⟩)) :=
  load_classifier_reconstructs_on_failure ⟨none, none, none⟩ 7 3

/-- C9: for each image-get operation, a positive requested count exceeding
the store's size warns and returns all available images (no exception; the
operations are total functions), while an absent/None/0 count returns all
available images with no warning. -/
theorem get_images_cap_with_warning (dir : List String) (failCharSet : List String)
    (num : Option Nat) (n : Nat) (shuffle : List String → List String) :
    ((num = some n ∧ 0 < n ∧ (list_png dir).length < n) →
        get_test_images dir num shuffle = { warned := true, files := list_png dir }
        ∧ get_training_images dir num shuffle = { warned := true, files := list_png dir })
    ∧ ((num = some n ∧ 0 < n
          ∧ ((list_png dir).filter (fun fn => decide (¬ removeSuffix fn ∈ failCharSet))).length
              < n) →
        get_training_char_images dir failCharSet num shuffle
          = { warned := true,
              files := (list_png dir).filter
                (fun fn => decide (¬ removeSuffix fn ∈ failCharSet)) })
    ∧ ((num = none ∨ num = some 0) →
        get_test_images dir num shuffle = { warned := false, files := list_png dir }
        ∧ get_training_images dir num shuffle = { warned := false, files := list_png dir }
        ∧ get_training_char_images dir failCharSet num shuffle
          = { warned := false,
              files := (list_png dir).filter
                (fun fn => decide (¬ removeSuffix fn ∈ failCharSet)) }) := by
  refine ⟨?_, ?_, ?_⟩
  · rintro ⟨hnum, hpos, hlt⟩
    subst hnum
    obtain ⟨m, rfl⟩ := Nat.exists_eq_succ_of_ne_zero (Nat.pos_iff_ne_zero.mp hpos)
    constructor <;>
      simp [get_test_images, get_training_images, get_images, List.filter_true, hlt]
  · rintro ⟨hnum, hpos, hlt⟩
    subst hnum
    obtain ⟨m, rfl⟩ := Nat.exists_eq_succ_of_ne_zero (Nat.pos_iff_ne_zero.mp hpos)
    simp only [decide_not] at hlt
    simp [get_training_char_images, get_images, hlt]
  · rintro (hnum | hnum) <;> subst hnum <;>
      exact ⟨by simp [get_test_images, get_images, List.filter_true],
             by simp [get_training_images, get_images, List.filter_true],
             by simp [get_training_char_images, get_images]⟩

/-- Witness for `get_images_cap_with_warning`: a one-image store with
five images requested, and the same store with `num` absent. -/
theorem get_images_cap_with_warning_witness :
    ((some 5 = some 5 ∧ 0 < 5 ∧ (list_png ["a.png"]).length < 5) →
        get_test_images ["a.png"] (some 5) id = { warned := true, files := list_png ["a.png"] }
        ∧ get_training_images ["a.png"] (some 5) id
            = { warned := true, files := list_png ["a.png"] })
    ∧ ((some 5 = some 5 ∧ 0 < 5
          ∧ ((list_png ["a.png"]).filter (fun fn => decide (¬ removeSuffix fn ∈ ([] : List String)))).length
              < 5) →
        get_training_char_images ["a.png"] [] (some 5) id
          = { warned := true,
              files := (list_png ["a.png"]).filter
                (fun fn => decide (¬ removeSuffix fn ∈ ([] : List String))) })
    ∧ ((some 5 = none ∨ some 5 = some 0) →
        get_test_images ["a.png"] (some 5) id = { warned := false, files := list_png ["a.png"] }
        ∧ get_training_images ["a.png"] (some 5) id
            = { warned := false, files := list_png ["a.png"] }
        ∧ get_training_char_images ["a.png"] [] (some 5) id
          = { warned := false,
              files := (list_png ["a.png"]).filter
                (fun fn => decide (¬ removeSuffix fn ∈ ([] : List String))) }) :=
  get_images_cap_with_warning ["a.png"] [] (some 5) 5 id

theorem promptRound_events (canon : String → String) (valid : String → Bool)
    (resp : Nat → String) :
    ∀ (fuel j : Nat) (r : Option String) (evs : List FetchEv),
    promptRound canon valid resp fuel j = some (r, evs) →
    (∀ p, ¬ FetchEv.savedFile p ∈ evs)
    ∧ (∀ s, FetchEv.canonicalizeCall s ∈ evs → ¬ s = "0")
    ∧ (∀ t, FetchEv.isValidCall t ∈ evs → ∃ s, ¬ s = "0" ∧ t = canon s) := by
  intro fuel
  induction fuel with
  | zero =>
    intro j r evs h
    exact absurd h (by simp [promptRound])
  | succ fuel ih =>
    intro j r evs h
    simp only [promptRound] at h
    by_cases h0 : resp j = "0"
    · rw [if_pos h0] at h
      simp only [Option.some.injEq, Prod.mk.injEq] at h
      obtain ⟨h1, h2⟩ := h
      subst h1
      subst h2
      exact ⟨by simp, by simp, by simp⟩
    · rw [if_neg h0] at h
      cases hv : valid (canon (resp j)) with
      | true =>
        rw [hv, if_pos rfl] at h
        simp only [Option.some.injEq, Prod.mk.injEq] at h
        obtain ⟨h1, h2⟩ := h
        subst h1
        subst h2
        refine ⟨by simp, ?_, ?_⟩
        · intro s hs
          simp at hs
          subst hs
          exact h0
        · intro t ht
          simp at ht
          subst ht
          exact ⟨resp j, h0, rfl⟩
      | false =>
        rw [hv, if_neg (by simp)] at h
        cases hrec : promptRound canon valid resp fuel (j + 1) with
        | none =>
          rw [hrec] at h
          exact absurd h (by simp)
        | some pr =>
          obtain ⟨r2, evs2⟩ := pr
          rw [hrec] at h
          simp only [Option.some.injEq, Prod.mk.injEq] at h
          obtain ⟨h1, h2⟩ := h
          subst h1
          subst h2
          obtain ⟨ih1, ih2, ih3⟩ := ih (j + 1) r2 evs2 hrec
          refine ⟨?_, ?_, ?_⟩
          · intro p hp
            simp at hp
            exact ih1 p hp
          · intro s hs
            simp at hs
            rcases hs with hs | hs
            · subst hs
              exact h0
            · exact ih2 s hs
          · intro t ht
            simp at ht
            rcases ht with ht | ht
            · subst ht
              exact ⟨resp j, h0, rfl⟩
            · exact ih3 t ht

theorem promptRound_accept_origin (canon : String → String) (valid : String → Bool)
    (resp : Nat → String) :
    ∀ (fuel j : Nat) (cs : String) (evs : List FetchEv),
    promptRound canon valid resp fuel j = some (some cs, evs) →
    ∃ s, ¬ s = "0" ∧ cs = canon s ∧ valid cs = true := by
  intro fuel
  induction fuel with
  | zero =>
    intro j cs evs h
    exact absurd h (by simp [promptRound])
  | succ fuel ih =>
    intro j cs evs h
    simp only [promptRound] at h
    by_cases h0 : resp j = "0"
    · rw [if_pos h0] at h
      simp only [Option.some.injEq, Prod.mk.injEq] at h
      exact Option.noConfusion h.1
    · rw [if_neg h0] at h
      cases hv : valid (canon (resp j)) with
      | true =>
        rw [hv, if_pos rfl] at h
        simp only [Option.some.injEq, Prod.mk.injEq, Option.some.injEq] at h
        obtain ⟨h1, _⟩ := h
        subst h1
        exact ⟨resp j, h0, rfl, hv⟩
      | false =>
        rw [hv, if_neg (by simp)] at h
        cases hrec : promptRound canon valid resp fuel (j + 1) with
        | none =>
          rw [hrec] at h
          exact absurd h (by simp)
        | some pr =>
          obtain ⟨r2, evs2⟩ := pr
          rw [hrec] at h
          simp only [Option.some.injEq, Prod.mk.injEq] at h
          obtain ⟨h1, _⟩ := h
          rw [h1] at hrec
          exact ih (j + 1) cs evs2 hrec

theorem asciiLower_eq_digit_zero (c : Char) (h : asciiLower c = '0') : c = '0' := by
  unfold asciiLower at h
  split at h <;> first | exact h | exact absurd h (by decide)

theorem specCanonicalizeSeq_eq_zero (s : String) (h : specCanonicalizeSeq s = "0") :
    s = "0" := by
  unfold specCanonicalizeSeq at h
  have hd : s.data.map asciiLower = ['0'] := by
    have := congrArg String.data h
    simpa using this
  obtain ⟨data⟩ := s
  simp only at hd
  cases data with
  | nil => simp at hd
  | cons a t =>
    simp only [List.map_cons, List.cons.injEq] at hd
    obtain ⟨ha, ht⟩ := hd
    have ht2 : t = [] := List.map_eq_nil.mp ht
    subst ht2
    rw [asciiLower_eq_digit_zero a ha]

/-- C8: when the operator resolves the prompt with the literal `"0"`, the
iteration ends with the skip message, no file is written for that image
(the directory is returned unchanged and no save event is logged), and
neither `canonicalize_seq` nor `is_valid_seq` is ever invoked on that
input (every canonicalization call of the round has a non-`"0"` argument,
and every validity check is on the canonicalization of a non-`"0"`
entry). -/
theorem fetch_skip_sentinel {img_t : Type _} (canon : String → String)
    (valid : String → Bool) (resp : Nat → String) (fuel : Nat) (img : img_t)
    (dir : List (String × img_t)) (evs : List FetchEv)
    (hpr : promptRound canon valid resp fuel 0 = some (none, evs)) :
    fetchIter canon valid resp fuel img dir = some (dir, evs ++ [.skipMsg])
    ∧ (∀ p, ¬ FetchEv.savedFile p ∈ evs ++ [FetchEv.skipMsg])
    ∧ (∀ s, FetchEv.canonicalizeCall s ∈ evs → ¬ s = "0")
    ∧ (∀ t, FetchEv.isValidCall t ∈ evs → ∃ s, ¬ s = "0" ∧ t = canon s) := by
  obtain ⟨he1, he2, he3⟩ := promptRound_events canon valid resp fuel 0 none evs hpr
  refine ⟨?_, ?_, he2, he3⟩
  · simp [fetchIter, hpr]
  · intro p hp
    simp at hp
    exact he1 p hp

/-- Witness for `fetch_skip_sentinel`: the operator enters `"0"` at the
first prompt. -/
theorem fetch_skip_sentinel_witness :
    fetchIter specCanonicalizeSeq (fun _ => true) (fun _ => "0") 1 (0 : Nat) []
      = some ([], [FetchEv.promptInput "0"] ++ [FetchEv.skipMsg])
    ∧ (∀ p, ¬ FetchEv.savedFile p ∈ [FetchEv.promptInput "0"] ++ [FetchEv.skipMsg])
    ∧ (∀ s, FetchEv.canonicalizeCall s ∈ [FetchEv.promptInput "0"] → ¬ s = "0")
    ∧ (∀ t, FetchEv.isValidCall t ∈ [FetchEv.promptInput "0"] →
        ∃ s, ¬ s = "0" ∧ t = specCanonicalizeSeq s) :=
  fetch_skip_sentinel specCanonicalizeSeq (fun _ => true) (fun _ => "0") 1 0 []
    [FetchEv.promptInput "0"] (by decide)

/-- C7: when the canonicalized valid sequence accepted by the prompt names
a file that already exists in the target store, the iteration prints the
warning and returns the directory unchanged (the existing file keeps its
content), writes nothing, raises nothing (it returns a value), and the
acquisition loop proceeds to the remaining images on the unchanged
directory.  Stated for the spec-modelled case-folding canonicalization,
under which an accepted sequence can never be the skip sentinel `"0"`. -/
theorem fetch_existing_label_no_overwrite {img_t : Type _} (valid : String → Bool)
    (resp : Nat → String) (fuel : Nat) (img img0 : img_t)
    (dir : List (String × img_t)) (rest : List (img_t × (Nat → String)))
    (cs : String) (evs : List FetchEv)
    (hpr : promptRound specCanonicalizeSeq valid resp fuel 0 = some (some cs, evs))
    (hex : lookupKey dir (addSuffix cs) = some img0) :
    fetchIter specCanonicalizeSeq valid resp fuel img dir
      = some (dir, evs ++ [.warnExistsMsg])
    ∧ lookupKey dir (addSuffix cs) = some img0
    ∧ (∀ p, ¬ FetchEv.savedFile p ∈ evs ++ [FetchEv.warnExistsMsg])
    ∧ fetch_captchas_to_dir specCanonicalizeSeq valid fuel ((img, resp) :: rest) dir
        = Option.map (fun pr => (pr.1, (evs ++ [FetchEv.warnExistsMsg]) ++ pr.2))
            (fetch_captchas_to_dir specCanonicalizeSeq valid fuel rest dir) := by
  have hcs : ¬ cs = "0" := by
    obtain ⟨s, hs0, hcanon, _⟩ :=
      promptRound_accept_origin specCanonicalizeSeq valid resp fuel 0 cs evs hpr
    intro hzero
    exact hs0 (specCanonicalizeSeq_eq_zero s (hcanon ▸ hzero))
  obtain ⟨he1, _, _⟩ := promptRound_events specCanonicalizeSeq valid resp fuel 0
    (some cs) evs hpr
  have hiter : fetchIter specCanonicalizeSeq valid resp fuel img dir
      = some (dir, evs ++ [.warnExistsMsg]) := by
    simp [fetchIter, hpr, hcs, hex]
  refine ⟨hiter, hex, ?_, ?_⟩
  · intro p hp
    simp at hp
    exact he1 p hp
  · simp only [fetch_captchas_to_dir, hiter]
    cases hrest : fetch_captchas_to_dir specCanonicalizeSeq valid fuel rest dir with
    | none => rfl
    | some pr => rfl

/-- Witness for `fetch_existing_label_no_overwrite`: the operator enters
`"AB"`, canonicalized to `"ab"`, whose file `ab.png` already exists. -/
theorem fetch_existing_label_no_overwrite_witness :
    fetchIter specCanonicalizeSeq (fun s => s == "ab") (fun _ => "AB") 1 (9 : Nat)
        [("ab.png", 5)]
      = some ([("ab.png", 5)],
          [FetchEv.promptInput "AB", FetchEv.canonicalizeCall "AB",
            FetchEv.isValidCall "ab"] ++ [FetchEv.warnExistsMsg])
    ∧ lookupKey [("ab.png", (5 : Nat))] (addSuffix "ab") = some 5
    ∧ (∀ p, ¬ FetchEv.savedFile p ∈ [FetchEv.promptInput "AB", FetchEv.canonicalizeCall "AB",
          FetchEv.isValidCall "ab"] ++ [FetchEv.warnExistsMsg])
    ∧ fetch_captchas_to_dir specCanonicalizeSeq (fun s => s == "ab") 1
          [((9 : Nat), fun _ => "AB")] [("ab.png", 5)]
        = Option.map (fun pr => (pr.1,
              ([FetchEv.promptInput "AB", FetchEv.canonicalizeCall "AB",
                FetchEv.isValidCall "ab"] ++ [FetchEv.warnExistsMsg]) ++ pr.2))
            (fetch_captchas_to_dir specCanonicalizeSeq (fun s => s == "ab") 1 [] [("ab.png", 5)]) :=
  fetch_existing_label_no_overwrite (fun s => s == "ab") (fun _ => "AB") 1 9 5
    [("ab.png", 5)] [] "ab"
    [FetchEv.promptInput "AB", FetchEv.canonicalizeCall "AB", FetchEv.isValidCall "ab"]
    (by decide) (by decide)

theorem trainingSpecLoop_done (valLoss testLoss : Nat → ℚ) (freq : Nat) :
    ∀ (fuel iter : Nat) (st : EarlyStopState), st.doneLooping = true →
    trainingSpecLoop valLoss testLoss freq fuel iter st = st := by
  intro fuel iter st h
  cases fuel with
  | zero => rfl
  | succ fuel => simp [trainingSpecLoop, h]

theorem runEpochs_done (valLoss testLoss : Nat → ℚ) (freq nTB : Nat) :
    ∀ (fuel epoch : Nat) (st : EarlyStopState), st.doneLooping = true →
    runEpochs valLoss testLoss freq nTB fuel epoch st = st := by
  intro fuel epoch st h
  cases fuel with
  | zero => rfl
  | succ fuel => simp [runEpochs, h]

theorem trainingSpecLoop_add (valLoss testLoss : Nat → ℚ) (freq : Nat) :
    ∀ (a b iter : Nat) (st : EarlyStopState),
    trainingSpecLoop valLoss testLoss freq (a + b) iter st
      = trainingSpecLoop valLoss testLoss freq b (iter + a)
          (trainingSpecLoop valLoss testLoss freq a iter st) := by
  intro a
  induction a with
  | zero =>
    intro b iter st
    simp [trainingSpecLoop]
  | succ a ih =>
    intro b iter st
    by_cases hdone : st.doneLooping = true
    · rw [trainingSpecLoop_done _ _ _ _ _ _ hdone,
        trainingSpecLoop_done _ _ _ _ _ _ hdone,
        trainingSpecLoop_done _ _ _ _ _ _ hdone]
    · have hd : st.doneLooping = false := Bool.not_eq_true _ ▸ Bool.of_not_eq_true hdone
      rw [show a + 1 + b = (a + b) + 1 from by omega]
      simp only [trainingSpecLoop, hd, Bool.false_eq_true, if_false]
      rw [ih b (iter + 1)]
      congr 1
      omega

theorem runBatchList_eq_flat (valLoss testLoss : Nat → ℚ) (freq nTB epoch : Nat) :
    ∀ (k b0 : Nat) (st : EarlyStopState), st.doneLooping = false →
    runBatchList valLoss testLoss freq nTB epoch (List.range' b0 k) st
      = trainingSpecLoop valLoss testLoss freq k ((epoch - 1) * nTB + b0) st := by
  intro k
  induction k with
  | zero =>
    intro b0 st hd
    rfl
  | succ k ih =>
    intro b0 st hd
    rw [List.range'_succ]
    simp only [runBatchList, trainingSpecLoop, hd, Bool.false_eq_true, if_false]
    by_cases h2 : (processBatch valLoss testLoss freq ((epoch - 1) * nTB + b0) st).doneLooping
      = true
    · rw [if_pos h2, trainingSpecLoop_done _ _ _ _ _ _ h2]
    · have h2f : (processBatch valLoss testLoss freq ((epoch - 1) * nTB + b0) st).doneLooping
          = false := Bool.of_not_eq_true h2
      rw [if_neg h2, ih (b0 + 1) _ h2f, Nat.add_succ]

theorem runEpochs_eq_flat (valLoss testLoss : Nat → ℚ) (freq nTB : Nat) :
    ∀ (fuel epoch : Nat) (st : EarlyStopState), st.doneLooping = false →
    runEpochs valLoss testLoss freq nTB fuel epoch st
      = trainingSpecLoop valLoss testLoss freq (fuel * nTB) (epoch * nTB) st := by
  intro fuel
  induction fuel with
  | zero =>
    intro epoch st hd
    rw [Nat.zero_mul]
    rfl
  | succ fuel ih =>
    intro epoch st hd
    simp only [runEpochs, hd, Bool.false_eq_true, if_false]
    have hinner : runBatchList valLoss testLoss freq nTB (epoch + 1) (List.range nTB) st
        = trainingSpecLoop valLoss testLoss freq nTB (epoch * nTB) st := by
      rw [List.range_eq_range', runBatchList_eq_flat valLoss testLoss freq nTB (epoch + 1)
        nTB 0 st hd]
      simp
    rw [hinner]
    have hsplit : (fuel + 1) * nTB = nTB + fuel * nTB := by ring
    rw [hsplit, trainingSpecLoop_add]
    by_cases h2 : (trainingSpecLoop valLoss testLoss freq nTB (epoch * nTB) st).doneLooping
      = true
    · rw [runEpochs_done _ _ _ _ _ _ _ h2, trainingSpecLoop_done _ _ _ _ _ _ h2]
    · have h2f : (trainingSpecLoop valLoss testLoss freq nTB (epoch * nTB) st).doneLooping
          = false := Bool.of_not_eq_true h2
      rw [ih (epoch + 1) _ h2f]
      congr 1
      ring

theorem trainingSpecLoop_skip (valLoss testLoss : Nat → ℚ) (freq : Nat) :
    ∀ (fuel iter : Nat) (st : EarlyStopState), st.doneLooping = false →
    iter + fuel ≤ st.patience →
    (∀ j, iter ≤ j → j < iter + fuel → (j + 1) % freq ≠ 0) →
    trainingSpecLoop valLoss testLoss freq fuel iter st = st := by
  intro fuel
  induction fuel with
  | zero =>
    intro iter st hd hp hj
    rfl
  | succ fuel ih =>
    intro iter st hd hp hj
    have hstep : processBatch valLoss testLoss freq iter st = st := by
      simp only [processBatch]
      rw [if_neg (hj iter le_rfl (by omega)), if_neg (by omega : ¬ st.patience ≤ iter)]
    simp only [trainingSpecLoop, hd, Bool.false_eq_true, if_false, hstep]
    exact ih (iter + 1) st hd (by omega) (fun j h1 h2 => hj j (by omega) (by omega))

/-- C3 (code bug): the nested training loop of `_construct_mlp` follows
the flat early-stopping schedule that validates every `n_train_batches`
minibatches -- because truth-testing the symbolic `T.lt(n_train_batches,
patience / 2)` tensor is unconditionally truthy, `validation_frequency`
is always `n_train_batches` and the `patience / 2` cap of the claim is
dead code.  At the failing input `n_train_batches = 5001` (one epoch,
constant zero losses) the code performs its first (and best) validation
at iteration 5000, while the claimed `min(n_train_batches, patience / 2)`
schedule (`trainingSpec`) validates first at iteration 4999. -/
theorem construct_mlp_loop_truthy_lt_divergence :
    (∀ (valLoss testLoss : Nat → ℚ) (nEpochs nTB : Nat),
        construct_mlp_loop valLoss testLoss nEpochs nTB
          = trainingSpecLoop valLoss testLoss nTB (nEpochs * nTB) 0 initEarlyStop)
    ∧ (construct_mlp_loop (fun _ => 0) (fun _ => 0) 1 5001).bestIter = 5000
    ∧ (trainingSpec (fun _ => 0) (fun _ => 0) 1 5001).bestIter = 4999 := by
  have hmain : ∀ (valLoss testLoss : Nat → ℚ) (nEpochs nTB : Nat),
      construct_mlp_loop valLoss testLoss nEpochs nTB
        = trainingSpecLoop valLoss testLoss nTB (nEpochs * nTB) 0 initEarlyStop := by
    intro valLoss testLoss nEpochs nTB
    unfold construct_mlp_loop
    rw [if_pos trivial, runEpochs_eq_flat _ _ _ _ _ _ _ rfl]
    congr 1
    omega
  refine ⟨hmain, ?_, ?_⟩
  · rw [hmain, show (1 * 5001 : Nat) = 5000 + 1 from by norm_num,
      trainingSpecLoop_add,
      trainingSpecLoop_skip _ _ _ 5000 0 initEarlyStop rfl (by decide)
        (fun j h1 h2 => by omega)]
    decide
  · simp only [trainingSpec]
    rw [show min 5001 (10000 / 2) = 5000 from by norm_num,
      show (1 * 5001 : Nat) = 4999 + 2 from by norm_num,
      trainingSpecLoop_add,
      trainingSpecLoop_skip _ _ _ 4999 0 initEarlyStop rfl (by decide)
        (fun j h1 h2 => by omega)]
    decide

theorem lookupKey_foldl_setKey_mono (chars : List Char) :
    ∀ (m : CharMap) (c : Char), (lookupKey m c).isSome = true →
    (lookupKey (chars.foldl (fun acc ch => setKey acc ch (0, 0)) m) c).isSome = true := by
  induction chars with
  | nil => intro m c h; exact h
  | cons ch rest ih =>
    intro m c h
    simp only [List.foldl_cons]
    apply ih
    rw [lookupKey_setKey]
    by_cases hc : c = ch
    · rw [if_pos hc]; rfl
    · rw [if_neg hc]; exact h

theorem lookupKey_foldl_setKey (chars : List Char) :
    ∀ (m : CharMap) (c : Char), c ∈ chars →
    (lookupKey (chars.foldl (fun acc ch => setKey acc ch (0, 0)) m) c).isSome = true := by
  induction chars with
  | nil => intro m c h; exact absurd h (List.not_mem_nil c)
  | cons ch rest ih =>
    intro m c h
    simp only [List.foldl_cons]
    rcases List.mem_cons.mp h with h | h
    · subst h
      apply lookupKey_foldl_setKey_mono
      rw [lookupKey_setKey, if_pos rfl]
      rfl
    · exact ih _ c h

theorem processCharsAux_ok_of_keys (seq : String) (save isSuccess : Bool) (chars : List Char) :
    ∀ (is : List Nat) (m : CharMap) (sv : List String),
    (∀ i ∈ is, ∃ ch, seq.data.get? i = some ch ∧ ch ∈ chars) →
    (∀ c ∈ chars, (lookupKey m c).isSome = true) →
    ∃ m2 sv2, processCharsAux seq save isSuccess is m sv = .ok (m2, sv2)
      ∧ (∀ c ∈ chars, (lookupKey m2 c).isSome = true) := by
  intro is
  induction is with
  | nil =>
    intro m sv _ hm
    exact ⟨m, sv, rfl, hm⟩
  | cons i rest ih =>
    intro m sv hall hm
    obtain ⟨ch, hg, hch⟩ := hall i (List.mem_cons_self i rest)
    obtain ⟨sc, hsc⟩ := Option.isSome_iff_exists.mp (hm ch hch)
    have hm2 : ∀ c ∈ chars,
        (lookupKey (setKey m ch (if isSuccess then (sc.1 + 1, sc.2 + 1)
          else (sc.1, sc.2 + 1))) c).isSome = true := by
      intro c hc
      rw [lookupKey_setKey]
      by_cases hcc : c = ch
      · rw [if_pos hcc]; rfl
      · rw [if_neg hcc]; exact hm c hc
    obtain ⟨m2, sv2, hrec, hm3⟩ := ih _ (if isSuccess && save then
        sv ++ [String.singleton ch ++ "/" ++ seq ++ "." ++ toString (i + 1) ++ ".png"]
      else sv) (fun j hj => hall j (List.mem_cons_of_mem i hj)) hm2
    refine ⟨m2, sv2, ?_, hm3⟩
    simp only [processCharsAux, hg, hsc]
    exact hrec

theorem processSeqs_ok_of_keys (seqLen : Nat) (rec : String → Bool) (save : Bool)
    (chars : List Char) :
    ∀ (seqs : List String) (st : PState),
    (∀ seq ∈ seqs, seq.data.length = seqLen ∧ ∀ c ∈ seq.data, c ∈ chars) →
    (∀ c ∈ chars, (lookupKey st.numChar c).isSome = true) →
    ∃ st2, processSeqs seqLen rec save seqs st = .ok st2
      ∧ (∀ c ∈ chars, (lookupKey st2.numChar c).isSome = true) := by
  intro seqs
  induction seqs with
  | nil =>
    intro st _ hm
    exact ⟨st, rfl, hm⟩
  | cons seq rest ih =>
    intro st hall hm
    have hhead := hall seq (List.mem_cons_self seq rest)
    have hrange : ∀ i ∈ List.range seqLen, ∃ ch, seq.data.get? i = some ch ∧ ch ∈ chars := by
      intro i hi
      have hlt : i < seq.data.length := hhead.1 ▸ List.mem_range.mp hi
      refine ⟨seq.data.get ⟨i, hlt⟩, List.get?_eq_get hlt, ?_⟩
      exact hhead.2 _ (seq.data.get_mem i hlt)
    cases hrec : rec seq with
    | true =>
      obtain ⟨m2, sv2, hpc, hm2⟩ :=
        processCharsAux_ok_of_keys seq save true chars (List.range seqLen)
          st.numChar st.saved hrange hm
      obtain ⟨st2, hps, hm3⟩ := ih ⟨st.success ++ [seq], st.fail, m2, sv2⟩
        (fun s hs => hall s (List.mem_cons_of_mem seq hs)) hm2
      refine ⟨st2, ?_, hm3⟩
      simp only [processSeqs, hrec, if_true, hpc]
      exact hps
    | false =>
      obtain ⟨m2, sv2, hpc, hm2⟩ :=
        processCharsAux_ok_of_keys seq save false chars (List.range seqLen)
          st.numChar st.saved hrange hm
      obtain ⟨st2, hps, hm3⟩ := ih ⟨st.success, st.fail ++ [seq], m2, sv2⟩
        (fun s hs => hall s (List.mem_cons_of_mem seq hs)) hm2
      refine ⟨st2, ?_, hm3⟩
      simp only [processSeqs, hrec, Bool.false_eq_true, if_false, hpc]
      exact hps

theorem partition_force_ok (chars : List Char) (seqLen : Nat) (rec : String → Bool)
    (file : Option JsonDict) (dir : List String) (save : Bool)
    (hlen : ∀ s ∈ list_basename dir, s.data.length = seqLen)
    (hchars : ∀ s ∈ list_basename dir, ∀ c ∈ s.data, c ∈ chars) :
    ∃ res, partition_training_images_to_chars chars seqLen rec file dir true save = .ok res
      ∧ res.rate = specRate rec dir
      ∧ (save = false → res.saved = []) := by
  obtain ⟨d0, hd0⟩ : ∃ d0, effDict chars file true = resetForceUpdate chars d0 := by
    cases file with
    | none => exact ⟨emptyJsonDict, rfl⟩
    | some d => exact ⟨d, by simp [effDict]⟩
  have hkeys : ∀ c ∈ chars,
      (lookupKey (resetForceUpdate chars d0).numChar c).isSome = true := by
    intro c hc
    simp only [resetForceUpdate]
    exact lookupKey_foldl_setKey chars d0.numChar c hc
  obtain ⟨st2, hps, _⟩ := processSeqs_ok_of_keys seqLen rec save chars (list_basename dir)
    ⟨[], [], (resetForceUpdate chars d0).numChar, []⟩
    (fun seq hs => ⟨hlen seq hs, hchars seq hs⟩) hkeys
  have hfilter : (list_basename dir).filter
      (fun s => decide (¬ s ∈ ([] : List String) ++ [])) = list_basename dir := by
    apply List.filter_eq_self.mpr
    intro a _
    simp
  have hcore : partitionCore seqLen rec save (list_basename dir) [] []
      (resetForceUpdate chars d0).numChar
      = .ok (mkRunResult (list_basename dir).length st2) := by
    simp only [partitionCore, hfilter, hps]
  obtain ⟨hsucc, _⟩ := processSeqs_ok_lists _ _ _ _ _ _ hps
  simp only at hsucc
  refine ⟨mkRunResult (list_basename dir).length st2, ?_, ?_, ?_⟩
  · simp only [partition_training_images_to_chars, hd0, resetForceUpdate]
    exact hcore
  · simp only [mkRunResult, specRate, hsucc, List.nil_append]
  · intro hsave
    subst hsave
    have := processSeqs_nosave _ _ _ _ _ hps
    simp only [mkRunResult]
    simpa using this

theorem tuneFold_ok (chars : List Char) (seqLen : Nat)
    (recOf : ℚ → ℚ → ℚ → String → Bool) (dir : List String)
    (hlen : ∀ s ∈ list_basename dir, s.data.length = seqLen)
    (hchars : ∀ s ∈ list_basename dir, ∀ c ∈ s.data, c ∈ chars) :
    ∀ (ts : List (Nat × Nat × Nat)) (arr : Arr3) (file : Option JsonDict)
      (sv : List String),
    ∃ file2, tuneFold chars seqLen recOf dir ts (arr, file, sv)
      = .ok (ts.foldl (fun a t => set3 (tuneIdx t).1 (tuneIdx t).2.1 (tuneIdx t).2.2
          (tuneRate recOf dir t) a) arr, file2, sv) := by
  intro ts
  induction ts with
  | nil =>
    intro arr file sv
    exact ⟨file, rfl⟩
  | cons t rest ih =>
    intro arr file sv
    obtain ⟨h, s, v⟩ := t
    obtain ⟨res, hrun, hrate, hsaved⟩ := partition_force_ok chars seqLen
      (recOf ((h : ℚ) / 360) ((s : ℚ) / 100) ((v : ℚ) / 100)) file dir false hlen hchars
    obtain ⟨file2, hrec⟩ := ih (set3 (h - 4) ((s - 30) / 4) ((v - 50) / 4)
        (specRate (recOf ((h : ℚ) / 360) ((s : ℚ) / 100) ((v : ℚ) / 100)) dir) arr)
      (some (ledgerToDict res.ledger)) sv
    refine ⟨file2, ?_⟩
    simp only [tuneFold, hrun, hrate, hsaved rfl, List.append_nil, List.foldl_cons]
    rw [hrec]
    rfl

theorem length_modifyAt {β : Type _} (f : β → β) :
    ∀ (n : Nat) (l : List β), (modifyAt f n l).length = l.length := by
  intro n
  induction n with
  | zero =>
    intro l
    cases l <;> rfl
  | succ n ih =>
    intro l
    cases l with
    | nil => rfl
    | cons x xs => simp [modifyAt, ih]

theorem get?_modifyAt_self {β : Type _} (f : β → β) :
    ∀ (n : Nat) (l : List β), (modifyAt f n l).get? n = (l.get? n).map f := by
  intro n
  induction n with
  | zero =>
    intro l
    cases l <;> rfl
  | succ n ih =>
    intro l
    cases l with
    | nil => rfl
    | cons x xs =>
      simp only [modifyAt, List.get?_cons_succ]
      exact ih xs

theorem get?_modifyAt_ne {β : Type _} (f : β → β) :
    ∀ (n m : Nat) (l : List β), ¬ m = n → (modifyAt f n l).get? m = l.get? m := by
  intro n
  induction n with
  | zero =>
    intro m l hm
    cases l with
    | nil => rfl
    | cons x xs =>
      cases m with
      | zero => exact absurd rfl hm
      | succ m => rfl
  | succ n ih =>
    intro m l hm
    cases l with
    | nil => rfl
    | cons x xs =>
      cases m with
      | zero => rfl
      | succ m =>
        simp only [modifyAt, List.get?_cons_succ]
        exact ih m xs (fun hh => hm (by rw [hh]))

theorem mem_modifyAt {β : Type _} (f : β → β) :
    ∀ (n : Nat) (l : List β) (y : β), y ∈ modifyAt f n l → y ∈ l ∨ ∃ x ∈ l, y = f x := by
  intro n
  induction n with
  | zero =>
    intro l y hy
    cases l with
    | nil => exact Or.inl hy
    | cons x xs =>
      simp only [modifyAt, List.mem_cons] at hy
      rcases hy with hy | hy
      · exact Or.inr ⟨x, List.mem_cons_self x xs, hy⟩
      · exact Or.inl (List.mem_cons_of_mem x hy)
  | succ n ih =>
    intro l y hy
    cases l with
    | nil => exact Or.inl hy
    | cons x xs =>
      simp only [modifyAt, List.mem_cons] at hy
      rcases hy with hy | hy
      · exact Or.inl (hy ▸ List.mem_cons_self x xs)
      · rcases ih xs y hy with h | ⟨z, hz, hyz⟩
        · exact Or.inl (List.mem_cons_of_mem x h)
        · exact Or.inr ⟨z, List.mem_cons_of_mem x hz, hyz⟩

theorem wf3_set3 (a b c i j k : Nat) (q : ℚ) (arr : Arr3) (h : wf3 a b c arr) :
    wf3 a b c (set3 i j k q arr) := by
  obtain ⟨hlen, hmem⟩ := h
  constructor
  · rw [set3, length_modifyAt]
    exact hlen
  · intro p hp
    rcases mem_modifyAt _ _ _ _ hp with hp | ⟨p0, hp0, hpe⟩
    · exact hmem p hp
    · obtain ⟨hp0len, hp0mem⟩ := hmem p0 hp0
      subst hpe
      constructor
      · rw [length_modifyAt]
        exact hp0len
      · intro r hr
        rcases mem_modifyAt _ _ _ _ hr with hr | ⟨r0, hr0, hre⟩
        · exact hp0mem r hr
        · subst hre
          rw [length_modifyAt]
          exact hp0mem r0 hr0

theorem get3_set3_self (a b c i j k : Nat) (q : ℚ) (arr : Arr3) (h : wf3 a b c arr)
    (hi : i < a) (hj : j < b) (hk : k < c) :
    get3 (set3 i j k q arr) i j k = some q := by
  obtain ⟨hlen, hmem⟩ := h
  have hi2 : i < arr.length := hlen ▸ hi
  obtain ⟨plane, hplane⟩ := Option.isSome_iff_exists.mp (by
    rw [List.get?_eq_get hi2]; rfl : (arr.get? i).isSome = true)
  have hpmem : plane ∈ arr := List.get?_mem hplane
  obtain ⟨hplen, hpmem2⟩ := hmem plane hpmem
  have hj2 : j < plane.length := hplen ▸ hj
  obtain ⟨row, hrow⟩ := Option.isSome_iff_exists.mp (by
    rw [List.get?_eq_get hj2]; rfl : (plane.get? j).isSome = true)
  have hrmem : row ∈ plane := List.get?_mem hrow
  have hrlen : row.length = c := hpmem2 row hrmem
  have hk2 : k < row.length := hrlen ▸ hk
  obtain ⟨x, hx⟩ := Option.isSome_iff_exists.mp (by
    rw [List.get?_eq_get hk2]; rfl : (row.get? k).isSome = true)
  simp only [get3, set3, get?_modifyAt_self, hplane, Option.map_some', hrow, hx]

theorem get3_set3_ne (i j k i2 j2 k2 : Nat) (q : ℚ) (arr : Arr3)
    (hne : ¬ (i2, j2, k2) = (i, j, k)) :
    get3 (set3 i j k q arr) i2 j2 k2 = get3 arr i2 j2 k2 := by
  by_cases hi : i2 = i
  · subst hi
    by_cases hj : j2 = j
    · subst hj
      have hk : ¬ k2 = k := by
        intro hk
        exact hne (by rw [hk])
      simp only [get3, set3, get?_modifyAt_self]
      cases hplane : arr.get? i2 with
      | none => rfl
      | some plane =>
        simp only [Option.map_some', get?_modifyAt_self]
        cases hrow : plane.get? j2 with
        | none => rfl
        | some row =>
          simp only [Option.map_some']
          exact get?_modifyAt_ne _ _ _ _ hk
    · simp only [get3, set3, get?_modifyAt_self]
      cases hplane : arr.get? i2 with
      | none => rfl
      | some plane =>
        simp only [Option.map_some']
        rw [get?_modifyAt_ne _ _ _ _ hj]
  · simp only [get3, set3]
    rw [get?_modifyAt_ne _ _ _ _ hi]

theorem get3_foldl_not_mem (idx : Nat × Nat × Nat → Nat × Nat × Nat)
    (f : Nat × Nat × Nat → ℚ) :
    ∀ (ts : List (Nat × Nat × Nat)) (arr : Arr3) (i j k : Nat),
    ¬ (i, j, k) ∈ ts.map idx →
    get3 (ts.foldl (fun a u => set3 (idx u).1 (idx u).2.1 (idx u).2.2 (f u) a) arr) i j k
      = get3 arr i j k := by
  intro ts
  induction ts with
  | nil => intro arr i j k _; rfl
  | cons t rest ih =>
    intro arr i j k hmem
    simp only [List.map_cons, List.mem_cons] at hmem
    push_neg at hmem
    simp only [List.foldl_cons]
    rw [ih _ i j k (by simpa using hmem.2)]
    apply get3_set3_ne
    intro he
    exact hmem.1 (he.trans (by rfl))

theorem get3_foldl_set (idx : Nat × Nat × Nat → Nat × Nat × Nat)
    (f : Nat × Nat × Nat → ℚ) :
    ∀ (ts : List (Nat × Nat × Nat)) (arr : Arr3) (t : Nat × Nat × Nat),
    t ∈ ts → (ts.map idx).Nodup → wf3 4 5 5 arr →
    (∀ u ∈ ts, (idx u).1 < 4 ∧ (idx u).2.1 < 5 ∧ (idx u).2.2 < 5) →
    get3 (ts.foldl (fun a u => set3 (idx u).1 (idx u).2.1 (idx u).2.2 (f u) a) arr)
      (idx t).1 (idx t).2.1 (idx t).2.2 = some (f t) := by
  intro ts
  induction ts with
  | nil =>
    intro arr t ht _ _ _
    exact absurd ht (List.not_mem_nil t)
  | cons u rest ih =>
    intro arr t ht hnodup hwf hbounds
    simp only [List.map_cons, List.nodup_cons] at hnodup
    simp only [List.foldl_cons]
    rcases List.mem_cons.mp ht with ht | ht
    · subst ht
      rw [get3_foldl_not_mem idx f rest _ _ _ _ hnodup.1]
      obtain ⟨h1, h2, h3⟩ := hbounds t (List.mem_cons_self t rest)
      exact get3_set3_self 4 5 5 _ _ _ _ _ hwf h1 h2 h3
    · exact ih _ t ht hnodup.2
        (wf3_set3 _ _ _ _ _ _ _ _ hwf)
        (fun w hw => hbounds w (List.mem_cons_of_mem u hw))

theorem argmaxList_get : ∀ (l : List ℚ), ¬ l = [] →
    l.get? (argmaxList l).1 = some (argmaxList l).2 := by
  intro l
  induction l with
  | nil => intro h; exact absurd rfl h
  | cons x t ih =>
    intro _
    cases t with
    | nil => rfl
    | cons y rest =>
      simp only [argmaxList]
      by_cases hgt : (argmaxList (y :: rest)).2 > x
      · rw [if_pos hgt]
        simpa using ih (by simp)
      · rw [if_neg hgt]
        rfl

theorem argmaxList_max : ∀ (l : List ℚ) (x : ℚ), x ∈ l → x ≤ (argmaxList l).2 := by
  intro l
  induction l with
  | nil => intro x hx; exact absurd hx (List.not_mem_nil x)
  | cons a t ih =>
    intro x hx
    cases t with
    | nil =>
      simp only [List.mem_singleton] at hx
      subst hx
      exact le_refl _
    | cons y rest =>
      simp only [argmaxList]
      rcases List.mem_cons.mp hx with hx | hx
      · subst hx
        by_cases hgt : (argmaxList (y :: rest)).2 > x
        · rw [if_pos hgt]
          exact le_of_lt hgt
        · rw [if_neg hgt]
      · by_cases hgt : (argmaxList (y :: rest)).2 > a
        · rw [if_pos hgt]
          exact ih x hx
        · rw [if_neg hgt]
          exact le_trans (ih x hx) (not_lt.mp hgt)

theorem wf3_foldl_set3 (idx : Nat × Nat × Nat → Nat × Nat × Nat)
    (f : Nat × Nat × Nat → ℚ) :
    ∀ (ts : List (Nat × Nat × Nat)) (arr : Arr3), wf3 4 5 5 arr →
    wf3 4 5 5 (ts.foldl (fun a u => set3 (idx u).1 (idx u).2.1 (idx u).2.2 (f u) a) arr) := by
  intro ts
  induction ts with
  | nil => intro arr h; exact h
  | cons u rest ih =>
    intro arr h
    simp only [List.foldl_cons]
    exact ih _ (wf3_set3 _ _ _ _ _ _ _ _ h)

theorem flatten3_ne_nil (arr : Arr3) (h : wf3 4 5 5 arr) : ¬ flatten3 arr = [] := by
  obtain ⟨hlen, hmem⟩ := h
  intro hflat
  have harr : ¬ arr = [] := by
    intro he
    rw [he] at hlen
    exact absurd hlen (by simp)
  obtain ⟨plane, hplane⟩ := List.exists_mem_of_ne_nil arr harr
  obtain ⟨hplen, hpmem⟩ := hmem plane hplane
  have hp : ¬ plane = [] := by
    intro he
    rw [he] at hplen
    exact absurd hplen (by simp)
  obtain ⟨row, hrow⟩ := List.exists_mem_of_ne_nil plane hp
  have hrlen := hpmem row hrow
  have hr : ¬ row = [] := by
    intro he
    rw [he] at hrlen
    exact absurd hrlen (by simp)
  obtain ⟨x, hx⟩ := List.exists_mem_of_ne_nil row hr
  have : x ∈ flatten3 arr := by
    simp only [flatten3, List.mem_bind]
    exact ⟨plane, hplane, row, hrow, hx⟩
  rw [hflat] at this
  exact absurd this (List.not_mem_nil x)

theorem tune_arr_wf (recOf : ℚ → ℚ → ℚ → String → Bool) (dir : List String) :
    wf3 4 5 5 (tuneArr recOf dir) := by
  have hwf0 : wf3 4 5 5 (zeros3 h_tol.length s_tol.length v_tol.length) := by
    unfold wf3
    decide
  unfold tuneArr
  exact wf3_foldl_set3 _ _ tuneTriples _ hwf0

set_option maxHeartbeats 1000000 in
theorem tune_arr_cell (recOf : ℚ → ℚ → ℚ → String → Bool) (dir : List String)
    (h s v : Nat) (hh : h ∈ h_tol) (hs : s ∈ s_tol) (hv : v ∈ v_tol) :
    get3 (tuneArr recOf dir) (h - 4) ((s - 30) / 4) ((v - 50) / 4)
      = some (specRate (recOf ((h : ℚ) / 360) ((s : ℚ) / 100) ((v : ℚ) / 100)) dir) := by
  have hmem : (h, s, v) ∈ tuneTriples :=
    List.mem_bind.mpr ⟨h, hh, List.mem_bind.mpr ⟨s, hs, List.mem_map.mpr ⟨v, hv, rfl⟩⟩⟩
  have hnodup : (tuneTriples.map tuneIdx).Nodup := by decide
  have hbounds : ∀ u ∈ tuneTriples,
      (tuneIdx u).1 < 4 ∧ (tuneIdx u).2.1 < 5 ∧ (tuneIdx u).2.2 < 5 := by decide
  have hwf0 : wf3 4 5 5 (zeros3 h_tol.length s_tol.length v_tol.length) := by
    unfold wf3
    decide
  have hcell := get3_foldl_set tuneIdx (tuneRate recOf dir) tuneTriples
    (zeros3 h_tol.length s_tol.length v_tol.length) (h, s, v) hmem hnodup hwf0 hbounds
  rw [← tuneArr] at hcell
  simp only [tuneIdx, tuneRate] at hcell
  exact hcell

set_option maxRecDepth 4096 in
set_option maxHeartbeats 1000000 in
/-- C4: `tune_partition_parameter` sweeps hue 4..7 (over 360), saturation
{30,34,38,42,46} (over 100) and value {50,54,58,62,66} (over 100); each
combination runs the partition driver with `force_update=True` and
`save=False` (so no character-image file is written), storing the returned
success rate at the zero-based index `(h-4, (s-30)/4, (v-50)/4)` of the
4×5×5 result array; the reported best value is the maximum of the array,
the reported best index is the unraveling of a row-major position holding
it, and the full array is returned (persisted as `gridsearch.npy`). -/
theorem tune_partition_parameter_grid (chars : List Char) (seqLen : Nat)
    (recOf : ℚ → ℚ → ℚ → String → Bool) (file : Option JsonDict) (dir : List String)
    (hlen : ∀ s ∈ list_basename dir, s.data.length = seqLen)
    (hchars : ∀ s ∈ list_basename dir, ∀ c ∈ s.data, c ∈ chars) :
    ∃ T, tune_partition_parameter chars seqLen recOf file dir = .ok T
    ∧ h_tol = [4, 5, 6, 7]
    ∧ s_tol = [30, 34, 38, 42, 46]
    ∧ v_tol = [50, 54, 58, 62, 66]
    ∧ (∀ h ∈ h_tol, ∀ s ∈ s_tol, ∀ v ∈ v_tol,
        get3 T.rate (h - 4) ((s - 30) / 4) ((v - 50) / 4)
          = some (specRate (recOf ((h : ℚ) / 360) ((s : ℚ) / 100) ((v : ℚ) / 100)) dir))
    ∧ T.savedCharFiles = []
    ∧ (∃ n, (flatten3 T.rate).get? n = some T.bestVal ∧ T.bestIdx = unravel455 n)
    ∧ (∀ q ∈ flatten3 T.rate, q ≤ T.bestVal) := by
  obtain ⟨file2, hfold⟩ := tuneFold_ok chars seqLen recOf dir hlen hchars tuneTriples
    (zeros3 h_tol.length s_tol.length v_tol.length) file []
  rw [← tuneArr] at hfold
  refine ⟨⟨tuneArr recOf dir, unravel455 (argmaxList (flatten3 (tuneArr recOf dir))).1,
      (argmaxList (flatten3 (tuneArr recOf dir))).2, []⟩,
    ?_, by decide, by decide, by decide, ?_, rfl, ?_, ?_⟩
  · simp only [tune_partition_parameter, hfold]
  · intro h hh s hs v hv
    exact tune_arr_cell recOf dir h s v hh hs hv
  · exact ⟨(argmaxList (flatten3 (tuneArr recOf dir))).1,
      argmaxList_get _ (flatten3_ne_nil _ (tune_arr_wf recOf dir)), rfl⟩
  · intro q hq
    exact argmaxList_max _ q hq

/-- Witness for `tune_partition_parameter_grid`: a single-label store
(`"a"`), one-character alphabet, recognizer that always succeeds. -/
theorem tune_partition_parameter_grid_witness :
    ∃ T, tune_partition_parameter ['a'] 1 (fun _ _ _ _ => true) none ["a.png"] = .ok T
    ∧ h_tol = [4, 5, 6, 7]
    ∧ s_tol = [30, 34, 38, 42, 46]
    ∧ v_tol = [50, 54, 58, 62, 66]
    ∧ (∀ h ∈ h_tol, ∀ s ∈ s_tol, ∀ v ∈ v_tol,
        get3 T.rate (h - 4) ((s - 30) / 4) ((v - 50) / 4)
          = some (specRate ((fun _ _ _ _ => true) ((h : ℚ) / 360) ((s : ℚ) / 100)
              ((v : ℚ) / 100)) ["a.png"]))
    ∧ T.savedCharFiles = []
    ∧ (∃ n, (flatten3 T.rate).get? n = some T.bestVal ∧ T.bestIdx = unravel455 n)
    ∧ (∀ q ∈ flatten3 T.rate, q ≤ T.bestVal) :=
  tune_partition_parameter_grid ['a'] 1 (fun _ _ _ _ => true) none ["a.png"]
    (by decide) (by decide)
